import Mathlib

/-!
Verification development for the routine-music-handler repository.

The Python source is shallowly embedded: pure functions become Lean
functions on `String` / `List String`, the per-record pipeline of
`process_submission_sheet` becomes a trace-producing function over an
environment that records the outcome of each external (Google Drive /
Sheets) call, and the whole-sheet run becomes a fold that threads the
worksheet state.  Python `str` values are modelled by Lean `String`
(sequences of unicode scalar values); `str.lower` / `str.upper` are
modelled by Lean's ASCII-only `Char.toLower` / `Char.toUpper`, which
agrees with Python on the ASCII range (the only range the naming code
produces).
-/

namespace RoutineMusic

/-- Python whitespace test restricted to the ASCII range used by
`str.strip()` / `str.split()`: space, tab, newline, carriage return,
vertical tab and form feed. -/
def pyIsSpace (c : Char) : Bool :=
  c = ' ' || c = '\t' || c = '\n' || c = '\r' || c = '\x0b' || c = '\x0c'

/-- `str.strip()` on the character list: drop leading and trailing
whitespace. -/
def stripChars (l : List Char) : List Char :=
  ((l.dropWhile pyIsSpace).reverse.dropWhile pyIsSpace).reverse

/-- `str.strip()`. -/
def pyStrip (s : String) : String :=
  String.mk (stripChars s.data)

/-- Maximal runs of characters satisfying `p`; characters not
satisfying `p` act as separators and empty pieces are dropped.
`acc` holds the current run, reversed. -/
def runsAux (p : Char → Bool) : List Char → List Char → List (List Char)
  | [], acc => if acc = [] then [] else [acc.reverse]
  | c :: rest, acc =>
      if p c then runsAux p rest (c :: acc)
      else if acc = [] then runsAux p rest []
      else acc.reverse :: runsAux p rest []

/-- `str.split()` with no separator: split on whitespace runs, dropping
empty pieces.  Implemented on the character list. -/
def splitWsAux (l acc : List Char) : List (List Char) :=
  runsAux (fun c => !pyIsSpace c) l acc

/-- `str.split()` (whitespace, empties dropped). -/
def pySplitWs (s : String) : List (List Char) :=
  splitWsAux s.data []

/-- Character class `[A-Za-z0-9_]` of the `_NON_ALNUM` regex in
`processor.py` / `filenames.py`, stated on code points
(`A`-`Z` is 65-90, `a`-`z` is 97-122, `0`-`9` is 48-57, `_` is 95). -/
def isWordChar (c : Char) : Bool :=
  (65 ≤ c.toNat && c.toNat ≤ 90) || (97 ≤ c.toNat && c.toNat ≤ 122) ||
    (48 ≤ c.toNat && c.toNat ≤ 57) || c.toNat = 95

/-- `re.split(r"[^A-Za-z0-9_]+", w)` keeping only the non-empty
segments (the code skips empty segments): the maximal runs of
word characters. -/
def wordRuns (l : List Char) : List (List Char) :=
  runsAux isWordChar l []

/-- `seg[:1].upper() + seg[1:].lower()` (title-case a segment). -/
def capitalizeSeg : List Char → List Char
  | [] => []
  | c :: rest => c.toUpper :: rest.map Char.toLower

/-- `re.sub(r"_+", "_", v)`: collapse each maximal run of underscores
to a single underscore. -/
def collapseUnderscores : List Char → List Char
  | [] => []
  | c :: rest =>
      if c = '_' then '_' :: collapseUnderscores (rest.dropWhile (· = '_'))
      else c :: collapseUnderscores rest
  termination_by l => l.length
  decreasing_by
    · exact Nat.lt_succ_of_le ((List.dropWhile_sublist _).length_le)
    · exact Nat.lt_succ_self _

/-- `v.strip("_")`: drop leading and trailing underscores. -/
def stripUnderscores (l : List Char) : List Char :=
  ((l.dropWhile (· = '_')).reverse.dropWhile (· = '_')).reverse

/-- The joined title-cased word-character segments of
`_sanitize_user_entered_data_from_form` (the value `v` in the source):
underscores become spaces, the trimmed input is split on whitespace and
then on non-word characters, and each segment is title-cased. -/
def sanitizeFormCore (raw : List Char) : List Char :=
  (((splitWsAux (raw.map (fun c => if c = '_' then ' ' else c)) []).flatMap
    wordRuns).map capitalizeSeg).flatten

/-- `processor._sanitize_user_entered_data_from_form`:
trim, treat underscores as spaces, split on whitespace then on
non-word characters, title-case each segment, join, collapse and strip
underscores. -/
def sanitizeForm (value : String) : String :=
  if value = "" then ""
  else if stripChars value.data = [] then ""
  else String.mk (stripUnderscores (collapseUnderscores
    (sanitizeFormCore (stripChars value.data))))

/-- `re.sub(r"[^A-Za-z0-9_]+", "_", v)`: replace each maximal run of
non-word characters by a single underscore. -/
def subNonWordRuns : List Char → List Char
  | [] => []
  | c :: rest =>
      if isWordChar c then c :: subNonWordRuns rest
      else '_' :: subNonWordRuns (rest.dropWhile (fun c => !isWordChar c))
  termination_by l => l.length
  decreasing_by
    · exact Nat.lt_succ_self _
    · exact Nat.lt_succ_of_le ((List.dropWhile_sublist _).length_le)

/-- `word.capitalize()` (first char upper, rest lower). -/
def pyCapitalize : List Char → List Char
  | [] => []
  | c :: rest => c.toUpper :: rest.map Char.toLower

/-- The sanitised value of `filenames.sanitize_part` before underscore
collapsing/stripping: join the title-cased whitespace-separated words of
the lower-cased input and substitute non-word runs with `_`. -/
def sanitizePartCore (v0 : List Char) : List Char :=
  subNonWordRuns (((splitWsAux v0 []).map pyCapitalize).flatten)

/-- `filenames.sanitize_part` (same docstring, different mechanism):
trim and lowercase, title-case the whitespace-separated words and join
them, substitute non-word runs with `_`, collapse and strip
underscores. -/
def sanitizePart (value : String) : String :=
  if value = "" then ""
  else String.mk (stripUnderscores (collapseUnderscores
    (sanitizePartCore ((stripChars value.data).map Char.toLower))))

/-! ### Character-level lemmas for the sanitizers -/

theorem char_toNat_ofNat {n : Nat} (h : n < 0xd800) : (Char.ofNat n).toNat = n := by
  unfold Char.ofNat
  rw [dif_pos (Or.inl h)]
  rfl

theorem char_toUpper_eq (c : Char) :
    c.toUpper = if c.toNat ≥ 97 ∧ c.toNat ≤ 122 then Char.ofNat (c.toNat - 32) else c := rfl

theorem char_toLower_eq (c : Char) :
    c.toLower = if c.toNat ≥ 65 ∧ c.toNat ≤ 90 then Char.ofNat (c.toNat + 32) else c := rfl

theorem isWordChar_toUpper {c : Char} (h : isWordChar c = true) :
    isWordChar c.toUpper = true := by
  simp only [isWordChar, Bool.or_eq_true, Bool.and_eq_true, decide_eq_true_eq] at h ⊢
  rw [char_toUpper_eq]
  split
  · next hr =>
    rw [char_toNat_ofNat (by omega)]
    omega
  · exact h

theorem isWordChar_toLower {c : Char} (h : isWordChar c = true) :
    isWordChar c.toLower = true := by
  simp only [isWordChar, Bool.or_eq_true, Bool.and_eq_true, decide_eq_true_eq] at h ⊢
  rw [char_toLower_eq]
  split
  · next hr =>
    rw [char_toNat_ofNat (by omega)]
    omega
  · exact h

theorem mem_runsAux {p : Char → Bool} :
    ∀ {l acc : List Char} {r : List Char} {c : Char},
      r ∈ runsAux p l acc → c ∈ r → p c = true ∨ c ∈ acc
  | [], acc, r, c => by
    intro hr hc
    simp only [runsAux] at hr
    split at hr
    · simp at hr
    · simp only [List.mem_singleton] at hr
      subst hr
      exact Or.inr (List.mem_reverse.mp hc)
  | a :: l, acc, r, c => by
    intro hr hc
    simp only [runsAux] at hr
    split at hr
    · next hp =>
      rcases mem_runsAux hr hc with h | h
      · exact Or.inl h
      · rcases List.mem_cons.mp h with h | h
        · exact Or.inl (h ▸ hp)
        · exact Or.inr h
    · split at hr
      · rcases mem_runsAux hr hc with h | h
        · exact Or.inl h
        · simp at h
      · rcases List.mem_cons.mp hr with h | h
        · subst h
          exact Or.inr (List.mem_reverse.mp hc)
        · rcases mem_runsAux h hc with h' | h'
          · exact Or.inl h'
          · simp at h'

theorem head?_dropWhile_ne {p : α → Bool} :
    ∀ {l : List α} {x : α}, (l.dropWhile p).head? = some x → p x = false
  | [], x => by intro h; simp [List.dropWhile] at h
  | a :: l, x => by
    intro h
    rw [List.dropWhile_cons] at h
    split at h
    · exact head?_dropWhile_ne h
    · next hp =>
      simp only [List.head?_cons, Option.some.injEq] at h
      subst h
      exact Bool.of_not_eq_true hp

theorem mem_capitalizeSeg {seg : List Char} {c : Char} (h : c ∈ capitalizeSeg seg) :
    ∃ c' ∈ seg, c = c'.toUpper ∨ c = c'.toLower := by
  cases seg with
  | nil => simp [capitalizeSeg] at h
  | cons a rest =>
    simp only [capitalizeSeg, List.mem_cons, List.mem_map] at h
    rcases h with h | ⟨c', hc', rfl⟩
    · exact ⟨a, List.mem_cons_self .., Or.inl h⟩
    · exact ⟨c', List.mem_cons_of_mem _ hc', Or.inr rfl⟩

theorem mem_subNonWordRuns {l : List Char} {c : Char} (h : c ∈ subNonWordRuns l) :
    isWordChar c = true := by
  induction l using subNonWordRuns.induct with
  | case1 => simp [subNonWordRuns] at h
  | case2 a rest hw ih =>
    rw [subNonWordRuns, if_pos hw] at h
    rcases List.mem_cons.mp h with rfl | h
    · exact hw
    · exact ih h
  | case3 a rest hw ih =>
    rw [subNonWordRuns, if_neg hw] at h
    rcases List.mem_cons.mp h with rfl | h
    · decide
    · exact ih h

theorem head?_collapseUnderscores (l : List Char) :
    (collapseUnderscores l).head? = l.head? := by
  cases l with
  | nil => rw [collapseUnderscores]
  | cons c rest =>
    rw [collapseUnderscores]
    split
    · next hc => simp [hc]
    · simp

theorem mem_collapseUnderscores {l : List Char} {c : Char}
    (h : c ∈ collapseUnderscores l) : c ∈ l := by
  induction l using collapseUnderscores.induct with
  | case1 => simp [collapseUnderscores] at h
  | case2 rest ih =>
    rw [collapseUnderscores, if_pos rfl] at h
    rcases List.mem_cons.mp h with rfl | h
    · exact List.mem_cons_self ..
    · exact List.mem_cons_of_mem _ ((List.dropWhile_sublist _).subset (ih h))
  | case3 a rest ha ih =>
    rw [collapseUnderscores, if_neg ha] at h
    rcases List.mem_cons.mp h with rfl | h
    · exact List.mem_cons_self ..
    · exact List.mem_cons_of_mem _ (ih h)

/-- The relation "not both underscores" between adjacent characters. -/
def notUU (a b : Char) : Prop := ¬(a = '_' ∧ b = '_')

theorem chain'_collapseUnderscores (l : List Char) :
    List.Chain' notUU (collapseUnderscores l) := by
  induction l using collapseUnderscores.induct with
  | case1 => simp [collapseUnderscores]
  | case2 rest ih =>
    rw [collapseUnderscores, if_pos rfl]
    rw [List.chain'_cons']
    refine ⟨?_, ih⟩
    intro b hb
    rw [head?_collapseUnderscores] at hb
    intro ⟨_, hb'⟩
    subst hb'
    have := head?_dropWhile_ne (p := fun c => decide (c = '_')) hb
    simp at this
  | case3 a rest ha ih =>
    rw [collapseUnderscores, if_neg ha]
    rw [List.chain'_cons']
    exact ⟨fun b _ ⟨ha', _⟩ => ha ha', ih⟩

theorem stripUnderscores_isInfix (l : List Char) : stripUnderscores l <:+: l := by
  unfold stripUnderscores
  have h1 : l.dropWhile (· = '_') <:+ l := List.dropWhile_suffix _
  have h2 : (l.dropWhile (· = '_')).reverse.dropWhile (· = '_') <:+
      (l.dropWhile (· = '_')).reverse := List.dropWhile_suffix _
  have h3 : ((l.dropWhile (· = '_')).reverse.dropWhile (· = '_')).reverse <+:
      (l.dropWhile (· = '_')) := by
    refine List.reverse_suffix.mp ?_
    rw [List.reverse_reverse]
    exact h2
  exact h3.isInfix.trans h1.isInfix

theorem getLast?_suffix_ne_nil {l₁ l₂ : List α} (h : l₁ <:+ l₂) (hne : l₁ ≠ []) :
    l₁.getLast? = l₂.getLast? := by
  obtain ⟨t, rfl⟩ := h
  rw [List.getLast?_append_of_ne_nil _ hne]

theorem stripUnderscores_head?_ne (l : List Char) :
    (stripUnderscores l).head? ≠ some '_' := by
  unfold stripUnderscores
  intro h
  rw [List.head?_reverse] at h
  have hsuf : (l.dropWhile (· = '_')).reverse.dropWhile (· = '_') <:+
      (l.dropWhile (· = '_')).reverse := List.dropWhile_suffix _
  have hne : (l.dropWhile (· = '_')).reverse.dropWhile (· = '_') ≠ [] := by
    intro hnil
    rw [hnil] at h
    simp at h
  rw [getLast?_suffix_ne_nil hsuf hne, List.getLast?_reverse] at h
  have := head?_dropWhile_ne (p := fun c => decide (c = '_')) h
  simp at this

theorem stripUnderscores_getLast?_ne (l : List Char) :
    (stripUnderscores l).getLast? ≠ some '_' := by
  unfold stripUnderscores
  intro h
  rw [List.getLast?_reverse] at h
  have := head?_dropWhile_ne (p := fun c => decide (c = '_')) h
  simp at this

theorem wellformed_strip_collapse {v : List Char}
    (hv : ∀ c ∈ v, isWordChar c = true) :
    (∀ c ∈ stripUnderscores (collapseUnderscores v), isWordChar c = true) ∧
    (stripUnderscores (collapseUnderscores v)).head? ≠ some '_' ∧
    (stripUnderscores (collapseUnderscores v)).getLast? ≠ some '_' ∧
    List.Chain' notUU (stripUnderscores (collapseUnderscores v)) := by
  refine ⟨?_, stripUnderscores_head?_ne _, stripUnderscores_getLast?_ne _, ?_⟩
  · intro c hc
    exact hv c (mem_collapseUnderscores ((stripUnderscores_isInfix _).subset hc))
  · exact List.Chain'.infix (chain'_collapseUnderscores v) (stripUnderscores_isInfix _)

theorem stripChars_eq_nil {l : List Char} (h : ∀ c ∈ l, pyIsSpace c = true) :
    stripChars l = [] := by
  unfold stripChars
  rw [List.dropWhile_eq_nil_iff.mpr (fun x hx => h x hx)]
  rfl

theorem mk_strip_collapse_nil :
    String.mk (stripUnderscores (collapseUnderscores [])) = "" := by
  rw [collapseUnderscores]
  rfl

theorem sanitizeFormCore_chars {raw : List Char} {c : Char}
    (hc : c ∈ sanitizeFormCore raw) : isWordChar c = true := by
  unfold sanitizeFormCore at hc
  rw [List.mem_flatten] at hc
  obtain ⟨piece, hpiece, hcp⟩ := hc
  rw [List.mem_map] at hpiece
  obtain ⟨r, hr, rfl⟩ := hpiece
  rw [List.mem_flatMap] at hr
  obtain ⟨w, _, hrw⟩ := hr
  obtain ⟨c', hc', hcase⟩ := mem_capitalizeSeg hcp
  have hw : isWordChar c' = true := by
    rcases mem_runsAux hrw hc' with h | h
    · exact h
    · simp at h
  rcases hcase with rfl | rfl
  · exact isWordChar_toUpper hw
  · exact isWordChar_toLower hw

theorem sanitizeForm_core (s : String) :
    ∃ v : List Char, (∀ c ∈ v, isWordChar c = true) ∧
      sanitizeForm s = String.mk (stripUnderscores (collapseUnderscores v)) := by
  unfold sanitizeForm
  split
  · exact ⟨[], by simp, mk_strip_collapse_nil.symm⟩
  · split
    · exact ⟨[], by simp, mk_strip_collapse_nil.symm⟩
    · exact ⟨_, fun c hc => sanitizeFormCore_chars hc, rfl⟩

theorem sanitizePart_core (s : String) :
    ∃ v : List Char, (∀ c ∈ v, isWordChar c = true) ∧
      sanitizePart s = String.mk (stripUnderscores (collapseUnderscores v)) := by
  unfold sanitizePart
  split
  · exact ⟨[], by simp, mk_strip_collapse_nil.symm⟩
  · exact ⟨_, fun c hc => mem_subNonWordRuns hc, rfl⟩

theorem sanitizeForm_of_space {s : String} (h : ∀ c ∈ s.data, pyIsSpace c = true) :
    sanitizeForm s = "" := by
  unfold sanitizeForm
  split
  · rfl
  · rw [if_pos (stripChars_eq_nil h)]

theorem sanitizePart_of_space {s : String} (h : ∀ c ∈ s.data, pyIsSpace c = true) :
    sanitizePart s = "" := by
  unfold sanitizePart
  split
  · rfl
  · rw [stripChars_eq_nil h]
    rw [show sanitizePartCore (List.map Char.toLower []) = subNonWordRuns [] from rfl,
      subNonWordRuns]
    exact mk_strip_collapse_nil

/-- **C9.** For every input string, the field sanitizers used to build naming
keys (`_sanitize_user_entered_data_from_form` in `processor.py`, embedded as
`sanitizeForm`, and `sanitize_part` in `filenames.py`, embedded as
`sanitizePart`) return a string consisting only of ASCII letters, digits and
underscores, with no leading or trailing underscore and no two consecutive
underscores; they return the empty string for empty or whitespace-only
input; and they are deterministic (equal inputs give equal outputs). -/
theorem sanitizers_wellformed (s : String) :
    (∀ c ∈ (sanitizeForm s).data, isWordChar c = true) ∧
    (sanitizeForm s).data.head? ≠ some '_' ∧
    (sanitizeForm s).data.getLast? ≠ some '_' ∧
    List.Chain' notUU (sanitizeForm s).data ∧
    ((∀ c ∈ s.data, pyIsSpace c = true) → sanitizeForm s = "") ∧
    (∀ t : String, s = t → sanitizeForm s = sanitizeForm t) ∧
    (∀ c ∈ (sanitizePart s).data, isWordChar c = true) ∧
    (sanitizePart s).data.head? ≠ some '_' ∧
    (sanitizePart s).data.getLast? ≠ some '_' ∧
    List.Chain' notUU (sanitizePart s).data ∧
    ((∀ c ∈ s.data, pyIsSpace c = true) → sanitizePart s = "") ∧
    (∀ t : String, s = t → sanitizePart s = sanitizePart t) := by
  obtain ⟨v, hv, hform⟩ := sanitizeForm_core s
  obtain ⟨w, hw, hpart⟩ := sanitizePart_core s
  obtain ⟨hf1, hf2, hf3, hf4⟩ := wellformed_strip_collapse hv
  obtain ⟨hp1, hp2, hp3, hp4⟩ := wellformed_strip_collapse hw
  exact ⟨by rw [hform]; exact hf1, by rw [hform]; exact hf2,
    by rw [hform]; exact hf3, by rw [hform]; exact hf4,
    fun h => sanitizeForm_of_space h, fun t ht => by rw [ht],
    by rw [hpart]; exact hp1, by rw [hpart]; exact hp2,
    by rw [hpart]; exact hp3, by rw [hpart]; exact hp4,
    fun h => sanitizePart_of_space h, fun t ht => by rw [ht]⟩

/-- Witness for C9: concrete instantiations discharging the
whitespace-only hypotheses. -/
theorem sanitizers_wellformed_witness :
    sanitizeForm " \t " = "" ∧ sanitizePart " \t " = "" :=
  ⟨(sanitizers_wellformed " \t ").2.2.2.2.1 (by decide),
   (sanitizers_wellformed " \t ").2.2.2.2.2.2.2.2.2.2.1 (by decide)⟩

/-! ### Versioned-filename resolution (`drive_ops.resolve_versioned_filename`) -/

/-- `str.lower()` on a character list (ASCII model, see the header). -/
def lowerChars (l : List Char) : List Char := l.map Char.toLower

/-- `desired_filename.rsplit(".", 1)`, returning `(base, ext)` where the
extension keeps its leading dot, or `(s, "")` when there is no dot. -/
def splitExtension (s : String) : String × String :=
  if '.' ∈ s.data then
    (String.mk (s.data.take
        (s.data.length - (s.data.reverse.takeWhile (· ≠ '.')).length - 1)),
     String.mk ('.' :: (s.data.reverse.takeWhile (· ≠ '.')).reverse))
  else (s, "")

/-- Numeric value of a digit character. -/
def digitVal (c : Char) : Nat := c.toNat - 48

/-- `int(...)` on a non-empty digit string. -/
def natFromDigits (ds : List Char) : Nat :=
  ds.foldl (fun n c => n * 10 + digitVal c) 0

/-- `_VERSION_RE.search(base)` for the regex `_v(\d+)$`: if the string ends
with `_v` followed by one or more digits, return the prefix before `_v`
together with the numeric value of the digits; otherwise `none`. -/
def trailingVersionSplit (l : List Char) : Option (List Char × Nat) :=
  if l.reverse.takeWhile Char.isDigit = [] then none
  else
    match l.reverse.dropWhile Char.isDigit with
    | 'v' :: '_' :: restRev =>
        some (restRev.reverse, natFromDigits (l.reverse.takeWhile Char.isDigit).reverse)
    | _ => none

/-- The `pageSize=1000` literal passed to `drive.files().list` in
`resolve_versioned_filename`. -/
def pageSize : Nat := 1000

/-- One page of the Drive listing for
`q = "... and name contains '<prefix>'"` with `pageSize=1000`.  The
backend filter is modelled as the storage collaborator's case-insensitive
`prefixFilter` (spec section 6, `listNames`); the code issues a single
`.list(...).execute()` call and never follows `nextPageToken`, so only the
first `pageSize` matching names are returned. -/
def driveListPage (names : List String) (pfx : String) : List String :=
  (names.filter (fun n => (lowerChars pfx.data).isPrefixOf (lowerChars n.data))).take pageSize

/-- `name_lc[: -len(ext_lc)] if ext_lc else name_lc`. -/
def stemOf (nmLc extLc : List Char) : List Char :=
  if extLc ≠ [] then nmLc.take (nmLc.length - extLc.length) else nmLc

/-- The per-name body of the `used_versions` loop in
`resolve_versioned_filename`, parametrised by the prefix `p` that the
stem must carry: skip the name unless its lowercase form ends with the
(lowercase) extension and its stem starts with `p`; then extract the
trailing `_v<N>` version. -/
def versionOfName (p extLc : List Char) (nm : String) : Option Nat :=
  if extLc ≠ [] ∧ ¬(extLc <:+ lowerChars nm.data) then none
  else if ¬(p <+: stemOf (lowerChars nm.data) extLc) then none
  else
    match trailingVersionSplit (stemOf (lowerChars nm.data) extLc) with
    | some (_, n) => some n
    | none => none

/-- `while v in used_versions: v += 1`; the loop can bump `v` at most
`used.length` times, so `used.length + 1` steps of fuel always suffice. -/
def nextFreeAux : Nat → List Nat → Nat → Nat
  | 0, _, v => v
  | fuel + 1, used, v => if v ∈ used then nextFreeAux fuel used (v + 1) else v

/-- `drive_ops.resolve_versioned_filename`: split off the extension,
require a trailing `_v<N>` suffix (else the `ValueError`, modelled as
`none`), collect the versions used by the names on the first listing
page whose extension matches and whose stem starts with the base root,
and return the first free version from the start version upwards. -/
def resolve_versioned_filename (names : List String) (desired : String) :
    Option (String × Nat) :=
  match trailingVersionSplit (splitExtension desired).1.data with
  | none => none
  | some (rootChars, startVersion) =>
    let baseRoot := String.mk rootChars
    let ext := (splitExtension desired).2
    let page := driveListPage names (baseRoot ++ "_v")
    let used := page.filterMap (versionOfName (lowerChars rootChars) (lowerChars ext.data))
    let v := nextFreeAux (used.length + 1) used startVersion
    some (baseRoot ++ "_v" ++ toString v ++ ext, v)

/-- The versions "already present as a suffix on an existing name sharing
the same NamingKey and extension (case-insensitive comparison)", following
the spec's own definition (section 4.2): names whose sanitized stem starts
with `key + "_v"` (case-insensitively) and whose extension matches, with
the trailing `_v<N>` extracted. -/
def specUsedVersions (names : List String) (key ext : String) : List Nat :=
  names.filterMap (versionOfName (lowerChars key.data ++ ['_', 'v']) (lowerChars ext.data))

/-! ### Lemmas about the version resolver -/

theorem takeWhile_append_cons {p : α → Bool} {l₁ l₂ : List α} {x : α}
    (h₁ : ∀ a ∈ l₁, p a = true) (hx : p x = false) :
    (l₁ ++ x :: l₂).takeWhile p = l₁ := by
  induction l₁ with
  | nil => simp [List.takeWhile_cons, hx]
  | cons a l ih =>
    rw [List.cons_append, List.takeWhile_cons, if_pos (h₁ a (List.mem_cons_self ..))]
    rw [ih (fun b hb => h₁ b (List.mem_cons_of_mem _ hb))]

theorem dropWhile_append_cons {p : α → Bool} {l₁ l₂ : List α} {x : α}
    (h₁ : ∀ a ∈ l₁, p a = true) (hx : p x = false) :
    (l₁ ++ x :: l₂).dropWhile p = x :: l₂ := by
  induction l₁ with
  | nil => simp [List.dropWhile_cons, hx]
  | cons a l ih =>
    rw [List.cons_append, List.dropWhile_cons, if_pos (h₁ a (List.mem_cons_self ..))]
    exact ih (fun b hb => h₁ b (List.mem_cons_of_mem _ hb))

theorem isDigit_not_dot {c : Char} (h : c.isDigit = true) : ¬c = '.' := by
  intro hc
  subst hc
  simp [Char.isDigit] at h

theorem isDigit_toNat {c : Char} (h : c.isDigit = true) :
    48 ≤ c.toNat ∧ c.toNat ≤ 57 := by
  simp only [Char.isDigit, Bool.and_eq_true, decide_eq_true_eq, UInt32.le_def,
    BitVec.le_def] at h
  exact h

theorem toLower_of_isDigit {c : Char} (h : c.isDigit = true) : c.toLower = c := by
  rw [char_toLower_eq, if_neg]
  have := isDigit_toNat h
  omega

theorem trailingVersionSplit_append {k ds : List Char} (hne : ds ≠ [])
    (hds : ∀ c ∈ ds, c.isDigit = true) :
    trailingVersionSplit (k ++ '_' :: 'v' :: ds) = some (k, natFromDigits ds) := by
  unfold trailingVersionSplit
  have hrev : (k ++ '_' :: 'v' :: ds).reverse = ds.reverse ++ 'v' :: '_' :: k.reverse := by
    simp
  have hdsrev : ∀ c ∈ ds.reverse, c.isDigit = true :=
    fun c hc => hds c (List.mem_reverse.mp hc)
  rw [hrev, takeWhile_append_cons hdsrev (by decide), dropWhile_append_cons hdsrev (by decide)]
  rw [if_neg (by simpa using hne)]
  simp

theorem splitExtension_no_dot {s : String} (h : '.' ∉ s.data) :
    splitExtension s = (s, "") := by
  unfold splitExtension
  rw [if_neg h]

theorem splitExtension_append {b : String} {t : List Char} (ht : '.' ∉ t) :
    splitExtension (b ++ String.mk ('.' :: t)) = (b, String.mk ('.' :: t)) := by
  unfold splitExtension
  rw [if_pos (by simp)]
  have hdata : (b ++ String.mk ('.' :: t)).data = b.data ++ '.' :: t := by simp
  have hrev : (b.data ++ '.' :: t).reverse = t.reverse ++ '.' :: b.data.reverse := by
    simp
  have htw : (t.reverse ++ '.' :: b.data.reverse).takeWhile (· ≠ '.') = t.reverse := by
    refine takeWhile_append_cons ?_ (by simp)
    intro a ha
    simp only [ne_eq, decide_eq_true_eq]
    intro hc
    exact ht (hc ▸ List.mem_reverse.mp ha)
  rw [hdata, hrev, htw, List.reverse_reverse]
  have hlen : (b.data ++ '.' :: t).length - t.reverse.length - 1 = b.data.length := by
    simp only [List.length_append, List.length_cons, List.length_reverse]
    omega
  rw [hlen, List.take_left]

theorem length_filter_succ_le (v : Nat) (m : List Nat) :
    (m.filter (fun x => v + 1 ≤ x)).length ≤ (m.filter (fun x => v ≤ x)).length := by
  induction m with
  | nil => simp
  | cons b m ihm =>
    by_cases hb : v + 1 ≤ b
    · rw [List.filter_cons, if_pos (by simpa using hb),
        List.filter_cons, if_pos (by simp; omega)]
      simpa using ihm
    · rw [List.filter_cons, if_neg (by simpa using hb), List.filter_cons]
      split
      · exact Nat.le_succ_of_le ihm
      · exact ihm

theorem length_filter_lt_of_mem {l : List Nat} {v : Nat} (hv : v ∈ l) :
    (l.filter (fun x => v + 1 ≤ x)).length < (l.filter (fun x => v ≤ x)).length := by
  induction l with
  | nil => simp at hv
  | cons a l ih =>
    rcases List.mem_cons.mp hv with rfl | hv'
    · rw [List.filter_cons, List.filter_cons, if_neg (by simp), if_pos (by simp)]
      exact Nat.lt_succ_of_le (length_filter_succ_le v l)
    · have hlt := ih hv'
      rw [List.filter_cons, List.filter_cons]
      by_cases h1 : v + 1 ≤ a
      · rw [if_pos (by simpa using h1), if_pos (by simp; omega)]
        simpa using Nat.succ_lt_succ hlt
      · rw [if_neg (by simpa using h1)]
        split
        · exact Nat.lt_succ_of_le (Nat.le_of_lt hlt)
        · exact hlt

theorem nextFreeAux_spec :
    ∀ (fuel : Nat) (used : List Nat) (v : Nat),
      (used.filter (fun x => v ≤ x)).length < fuel →
      nextFreeAux fuel used v ∉ used ∧ v ≤ nextFreeAux fuel used v ∧
        (∀ w, v ≤ w → w < nextFreeAux fuel used v → w ∈ used)
  | 0, used, v => by intro h; omega
  | fuel + 1, used, v => by
    intro h
    rw [nextFreeAux]
    split
    · next hv =>
      have hlt : (used.filter (fun x => v + 1 ≤ x)).length < fuel := by
        have := length_filter_lt_of_mem (l := used) (v := v) hv
        omega
      obtain ⟨h1, h2, h3⟩ := nextFreeAux_spec fuel used (v + 1) hlt
      refine ⟨h1, by omega, ?_⟩
      intro w hw1 hw2
      rcases Nat.eq_or_lt_of_le hw1 with rfl | hlt'
      · exact hv
      · exact h3 w hlt' hw2
    · next hv => exact ⟨hv, Nat.le_refl _, fun w hw1 hw2 => by omega⟩

theorem nextFreeAux_full_spec (used : List Nat) (v : Nat) :
    nextFreeAux (used.length + 1) used v ∉ used ∧ v ≤ nextFreeAux (used.length + 1) used v ∧
      (∀ w, v ≤ w → w < nextFreeAux (used.length + 1) used v → w ∈ used) :=
  nextFreeAux_spec _ used v (Nat.lt_succ_of_le (List.length_filter_le _ _))

/-! ### `toString` on `Nat` produces digits that parse back -/

theorem digitChar_isDigit {m : Nat} (h : m < 10) : (Nat.digitChar m).isDigit = true := by
  interval_cases m <;> decide

theorem digitVal_digitChar {m : Nat} (h : m < 10) : digitVal (Nat.digitChar m) = m := by
  interval_cases m <;> decide

theorem toDigitsCore_chars :
    ∀ (fuel n : Nat) (ds : List Char), (∀ c ∈ ds, c.isDigit = true) →
      ∀ c ∈ Nat.toDigitsCore 10 fuel n ds, c.isDigit = true
  | 0, n, ds => fun hds => hds
  | fuel + 1, n, ds => by
    intro hds c hc
    rw [Nat.toDigitsCore] at hc
    have hd : ∀ x ∈ Nat.digitChar (n % 10) :: ds, x.isDigit = true := by
      intro x hx
      rcases List.mem_cons.mp hx with rfl | hx
      · exact digitChar_isDigit (Nat.mod_lt _ (by omega))
      · exact hds x hx
    split at hc
    · exact hd c hc
    · exact toDigitsCore_chars fuel (n / 10) _ hd c hc

theorem toDigitsCore_ne_nil :
    ∀ (fuel n : Nat) (ds : List Char), ds ≠ [] → Nat.toDigitsCore 10 fuel n ds ≠ []
  | 0, n, ds => fun h => h
  | fuel + 1, n, ds => by
    intro hds
    rw [Nat.toDigitsCore]
    split
    · simp
    · exact toDigitsCore_ne_nil fuel (n / 10) _ (by simp)

theorem toDigitsCore_foldl :
    ∀ (fuel n : Nat) (ds : List Char), n < fuel →
      ∃ k, ∀ a : Nat,
        (Nat.toDigitsCore 10 fuel n ds).foldl (fun x c => x * 10 + digitVal c) a =
          ds.foldl (fun x c => x * 10 + digitVal c) (a * 10 ^ k + n)
  | 0, n, ds => by intro h; omega
  | fuel + 1, n, ds => by
    intro h
    rw [Nat.toDigitsCore]
    split
    · next hdiv =>
      refine ⟨1, fun a => ?_⟩
      rw [List.foldl_cons, digitVal_digitChar (Nat.mod_lt _ (by omega))]
      have : n % 10 = n := by omega
      rw [this]
      ring_nf
    · next hdiv =>
      have hlt : n / 10 < fuel := by
        have h1 : n / 10 < n := Nat.div_lt_self (by omega) (by omega)
        omega
      obtain ⟨k, hk⟩ := toDigitsCore_foldl fuel (n / 10) (Nat.digitChar (n % 10) :: ds) hlt
      refine ⟨k + 1, fun a => ?_⟩
      rw [hk a, List.foldl_cons, digitVal_digitChar (Nat.mod_lt _ (by omega))]
      have : (a * 10 ^ k + n / 10) * 10 + n % 10 = a * 10 ^ (k + 1) + n := by
        have := Nat.div_add_mod n 10
        ring_nf
        omega
      rw [this]

theorem toString_nat_data (n : Nat) : (toString n).data = Nat.toDigits 10 n := rfl

theorem natFromDigits_toString (n : Nat) : natFromDigits (toString n).data = n := by
  rw [toString_nat_data]
  unfold Nat.toDigits
  obtain ⟨k, hk⟩ := toDigitsCore_foldl (n + 1) n [] (Nat.lt_succ_self n)
  unfold natFromDigits
  rw [hk 0]
  simp

theorem toString_nat_digits (n : Nat) : ∀ c ∈ (toString n).data, c.isDigit = true := by
  rw [toString_nat_data]
  unfold Nat.toDigits
  exact toDigitsCore_chars (n + 1) n [] (by simp)

theorem toString_nat_ne_nil (n : Nat) : (toString n).data ≠ [] := by
  rw [toString_nat_data]
  unfold Nat.toDigits
  rw [Nat.toDigitsCore]
  split
  · simp
  · exact toDigitsCore_ne_nil n (n / 10) _ (by simp)

/-! ### Structural lemmas about `versionOfName` -/

/-- Extension shape produced by the orchestrator: empty, or a dot
followed by a dot-free tail (`ext = original.name.rsplit(".", 1)[1]`). -/
def extShape (ext : String) : Prop :=
  ext = "" ∨ ∃ t, ext.data = '.' :: t ∧ '.' ∉ t

theorem lowerChars_append (l₁ l₂ : List Char) :
    lowerChars (l₁ ++ l₂) = lowerChars l₁ ++ lowerChars l₂ :=
  List.map_append ..

theorem lowerChars_digits {l : List Char} (h : ∀ c ∈ l, c.isDigit = true) :
    lowerChars l = l := by
  induction l with
  | nil => rfl
  | cons c rest ih =>
    unfold lowerChars
    rw [List.map_cons, toLower_of_isDigit (h c (List.mem_cons_self ..))]
    rw [show List.map Char.toLower rest = lowerChars rest from rfl,
      ih (fun c hc => h c (List.mem_cons_of_mem _ hc))]

theorem stemOf_append {pre extLc : List Char} (hne : extLc ≠ []) :
    stemOf (pre ++ extLc) extLc = pre := by
  unfold stemOf
  rw [if_pos hne]
  have hlen : (pre ++ extLc).length - extLc.length = pre.length := by simp
  rw [hlen, List.take_left]

theorem tvs_some_decomp {stem r : List Char} {n : Nat}
    (h : trailingVersionSplit stem = some (r, n)) :
    ∃ ds, ds ≠ [] ∧ (∀ c ∈ ds, c.isDigit = true) ∧
      stem = r ++ '_' :: 'v' :: ds ∧ n = natFromDigits ds := by
  unfold trailingVersionSplit at h
  split at h
  · exact absurd h (by simp)
  · next hdne =>
    split at h
    · next restRev heq =>
      rw [Option.some.injEq, Prod.mk.injEq] at h
      obtain ⟨h1, h2⟩ := h
      refine ⟨(stem.reverse.takeWhile Char.isDigit).reverse, by simpa using hdne,
        ?_, ?_, by rw [← h2]⟩
      · intro c hc
        exact List.mem_takeWhile_imp (List.mem_reverse.mp hc)
      · have hsplit := List.takeWhile_append_dropWhile (p := Char.isDigit) (l := stem.reverse)
        rw [heq] at hsplit
        have := congrArg List.reverse hsplit
        rw [List.reverse_reverse, List.reverse_append] at this
        simp only [List.reverse_cons, List.append_assoc] at this
        rw [← h1]
        have this2 : restRev.reverse ++
            '_' :: 'v' :: (stem.reverse.takeWhile Char.isDigit).reverse = stem := by
          simpa using this
        exact this2.symm
    · exact absurd h (by simp)

theorem tvs_append_prefix {keyLc stem : List Char} {r : List Char} {n : Nat}
    (hc : keyLc <+: stem) (htvs : trailingVersionSplit stem = some (r, n))
    (hlt : stem.length < keyLc.length + 2) :
    stem.length = keyLc.length ∨
      ∃ d, stem = keyLc ++ [d] ∧ d.isDigit = true := by
  obtain ⟨ds, hdne, hdig, hdecomp, _⟩ := tvs_some_decomp htvs
  have hlen := hc.length_le
  rcases Nat.lt_or_ge stem.length (keyLc.length + 1) with h1 | h1
  · left
    omega
  · right
    obtain ⟨suf, rfl⟩ := hc
    have hsuflen : suf.length = 1 := by
      have := List.length_append keyLc suf
      omega
    obtain ⟨d, rfl⟩ : ∃ d, suf = [d] := by
      cases suf with
      | nil => simp at hsuflen
      | cons x xs =>
        cases xs with
        | nil => exact ⟨x, rfl⟩
        | cons y ys => simp at hsuflen
    refine ⟨d, rfl, ?_⟩
    have hlast : (keyLc ++ [d]).getLast? = some d := List.getLast?_concat _
    have hlast2 : (r ++ '_' :: 'v' :: ds).getLast? = ds.getLast? := by
      rw [show r ++ '_' :: 'v' :: ds = (r ++ ['_', 'v']) ++ ds by simp,
        List.getLast?_append_of_ne_nil _ hdne]
    rw [hdecomp, hlast2] at hlast
    refine hdig d (List.mem_of_mem_getLast? ?_)
    simp [hlast]

theorem stemOf_pref (l ext : List Char) : stemOf l ext <+: l := by
  unfold stemOf
  split
  · exact List.take_prefix ..
  · exact List.prefix_refl _

theorem versionOfName_eq_some_iff {p extLc : List Char} {nm : String} {n : Nat} :
    versionOfName p extLc nm = some n ↔
      (extLc = [] ∨ extLc <:+ lowerChars nm.data) ∧
      p <+: stemOf (lowerChars nm.data) extLc ∧
      ∃ r, trailingVersionSplit (stemOf (lowerChars nm.data) extLc) = some (r, n) := by
  unfold versionOfName
  constructor
  · intro h
    split at h
    · exact absurd h (by simp)
    · next hcond =>
      split at h
      · exact absurd h (by simp)
      · next hpfx =>
        refine ⟨?_, not_not.mp hpfx, ?_⟩
        · by_cases hne : extLc = []
          · exact Or.inl hne
          · right
            by_contra hns
            exact hcond ⟨hne, hns⟩
        · split at h
          · next r m heq =>
            rw [Option.some.injEq] at h
            exact ⟨r, h ▸ heq⟩
          · exact absurd h (by simp)
  · intro ⟨hsuf, hpfx, r, htvs⟩
    rw [if_neg (by
      intro ⟨hne, hns⟩
      rcases hsuf with h | h
      · exact hne h
      · exact hns h)]
    rw [if_neg (not_not.mpr hpfx), htvs]

/-- On a name whose lowercase form starts with `key + "_v"`, the
resolver's per-name test (stem starts with the key) agrees with the
spec's (stem starts with `key + "_v"`), provided the extension is empty
or dot-led.  This is the heart of the claim-vs-code comparison for names
that pass the backend filter. -/
theorem versionOfName_prefix_eq {keyLc extLc : List Char} {nm : String}
    (hshape : extLc = [] ∨ ∃ t', extLc = '.' :: t')
    (hpfx : (keyLc ++ ['_', 'v']) <+: lowerChars nm.data) :
    versionOfName keyLc extLc nm = versionOfName (keyLc ++ ['_', 'v']) extLc nm := by
  rcases hv : versionOfName (keyLc ++ ['_', 'v']) extLc nm with _ | n
  · -- spec-side none: show code-side none as well
    rcases hc : versionOfName keyLc extLc nm with _ | n
    · rfl
    · exfalso
      obtain ⟨hsuf, hcode, r, htvs⟩ := versionOfName_eq_some_iff.mp hc
      -- derive the spec-side prefix, contradicting `hv = none`
      have hspec : (keyLc ++ ['_', 'v']) <+: stemOf (lowerChars nm.data) extLc := by
        rcases hsuf with hnil | hsuf
        · -- no extension: the stem is the whole lowercase name
          unfold stemOf
          rw [if_neg (by simp [hnil])]
          exact hpfx
        · rcases hshape with hnil | ⟨t', hdot⟩
          · unfold stemOf
            rw [if_neg (by simp [hnil])]
            exact hpfx
          · have hne : extLc ≠ [] := by simp [hdot]
            have hnm : lowerChars nm.data = stemOf (lowerChars nm.data) extLc ++ extLc := by
              obtain ⟨pre, hpre⟩ := hsuf
              rw [← hpre, stemOf_append hne]
            rcases Nat.lt_or_ge (stemOf (lowerChars nm.data) extLc).length
                (keyLc.length + 2) with hlt | hge
            · rcases tvs_append_prefix hcode htvs hlt with hlen | ⟨d, hstem, hdig⟩
              · -- stem = keyLc, so the name continues with '.', not '_'
                have hstem : stemOf (lowerChars nm.data) extLc = keyLc :=
                  (hcode.eq_of_length (hlen.symm)).symm
                rw [hstem, hdot] at hnm
                rw [hnm] at hpfx
                have := (List.prefix_append_right_inj keyLc).mp hpfx
                rw [List.cons_prefix_cons] at this
                exact absurd this.1 (by decide)
              · -- stem = keyLc ++ [d] with d a digit, yet the name forces d = '_'
                have hstemnm : stemOf (lowerChars nm.data) extLc <+: lowerChars nm.data :=
                  stemOf_pref ..
                have hsp : stemOf (lowerChars nm.data) extLc <+: keyLc ++ ['_', 'v'] :=
                  List.prefix_of_prefix_length_le hstemnm hpfx (by rw [hstem]; simp)
                rw [hstem] at hsp
                have := (List.prefix_append_right_inj keyLc).mp hsp
                rw [List.cons_prefix_cons] at this
                have hd : d = '_' := this.1
                rw [hd] at hdig
                exact absurd hdig (by decide)
            · -- long stem: restrict the prefix of the name to the stem
              have hstemnm : stemOf (lowerChars nm.data) extLc <+: lowerChars nm.data :=
                stemOf_pref ..
              exact List.prefix_of_prefix_length_le hpfx hstemnm (by simpa using hge)
      have : versionOfName (keyLc ++ ['_', 'v']) extLc nm = some n :=
        versionOfName_eq_some_iff.mpr ⟨hsuf, hspec, r, htvs⟩
      rw [hv] at this
      exact absurd this (by simp)
  · -- spec-side some: the code-side test is weaker, so it agrees
    obtain ⟨hsuf, hspec, r, htvs⟩ := versionOfName_eq_some_iff.mp hv
    have hcode : keyLc <+: stemOf (lowerChars nm.data) extLc :=
      (List.prefix_append keyLc ['_', 'v']).trans hspec
    exact versionOfName_eq_some_iff.mpr ⟨hsuf, hcode, r, htvs⟩

theorem fpred_of_spec_some {keyLc extLc : List Char} {nm : String} {n : Nat}
    (h : versionOfName (keyLc ++ ['_', 'v']) extLc nm = some n) :
    (keyLc ++ ['_', 'v']) <+: lowerChars nm.data := by
  obtain ⟨hsuf, hpfx, _, _⟩ := versionOfName_eq_some_iff.mp h
  exact hpfx.trans (stemOf_pref ..)

theorem lowerChars_key_v (key : String) :
    lowerChars (key ++ "_v").data = lowerChars key.data ++ ['_', 'v'] := by
  rw [String.data_append, lowerChars_append]
  rfl

theorem extShape_lower {ext : String} (h : extShape ext) :
    lowerChars ext.data = [] ∨ ∃ t', lowerChars ext.data = '.' :: t' := by
  rcases h with rfl | ⟨t, ht, _⟩
  · exact Or.inl rfl
  · right
    rw [ht]
    exact ⟨lowerChars t, rfl⟩

/-- With at most one page of matching names, the versions collected by the
resolver are exactly the spec's used versions for that key and
extension. -/
theorem mem_page_used_iff_spec {names : List String} {key ext : String} {n : Nat}
    (hshape : extShape ext)
    (hcount : (names.filter (fun nm =>
      (lowerChars (key ++ "_v").data).isPrefixOf (lowerChars nm.data))).length ≤ pageSize) :
    (n ∈ (driveListPage names (key ++ "_v")).filterMap
        (versionOfName (lowerChars key.data) (lowerChars ext.data)) ↔
      n ∈ specUsedVersions names key ext) := by
  have hkv := lowerChars_key_v key
  have hshape' := extShape_lower hshape
  constructor
  · intro h
    rw [List.mem_filterMap] at h
    obtain ⟨nm, hnm, hv⟩ := h
    unfold driveListPage at hnm
    have hfil := List.mem_of_mem_take hnm
    have hpred := (List.mem_filter.mp hfil).2
    rw [hkv, List.isPrefixOf_iff_prefix] at hpred
    rw [versionOfName_prefix_eq hshape' hpred] at hv
    exact List.mem_filterMap.mpr ⟨nm, (List.mem_filter.mp hfil).1, hkv ▸ hv⟩
  · intro h
    rw [specUsedVersions, List.mem_filterMap] at h
    obtain ⟨nm, hnm, hv⟩ := h
    have hpred : (lowerChars key.data ++ ['_', 'v']) <+: lowerChars nm.data :=
      fpred_of_spec_some hv
    rw [List.mem_filterMap]
    refine ⟨nm, ?_, ?_⟩
    · unfold driveListPage
      rw [List.take_of_length_le hcount]
      exact List.mem_filter.mpr ⟨hnm, by rw [hkv, List.isPrefixOf_iff_prefix]; exact hpred⟩
    · rw [versionOfName_prefix_eq hshape' hpred]
      exact hv

theorem resolve_splits {key ext : String} (hshape : extShape ext)
    (hkey : ext = "" → '.' ∉ key.data) :
    splitExtension (key ++ "_v1" ++ ext) = (key ++ "_v1", ext) := by
  rcases hshape with rfl | ⟨t, ht, htfree⟩
  · have : key ++ "_v1" ++ "" = key ++ "_v1" := by simp
    rw [this]
    refine splitExtension_no_dot ?_
    rw [String.data_append]
    intro hmem
    rcases List.mem_append.mp hmem with h | h
    · exact hkey rfl h
    · simp at h
  · have hext : ext = String.mk ('.' :: t) := by
      cases ext
      simp_all
    rw [hext]
    exact splitExtension_append htfree

theorem resolve_trailing (key : String) :
    trailingVersionSplit (key ++ "_v1").data = some (key.data, 1) := by
  have : (key ++ "_v1").data = key.data ++ '_' :: 'v' :: ['1'] := by
    rw [String.data_append]
  rw [this, trailingVersionSplit_append (by simp) (by decide),
    show natFromDigits ['1'] = 1 from rfl]

/-- Core characterization of `resolve_versioned_filename` on a
well-shaped desired name, assuming the matching listing fits in one
page: the result is the smallest version `v ≥ 1` whose `_v<N>` suffix is
absent among the names sharing the key and extension. -/
theorem resolve_one_page_core (names : List String) (key ext : String)
    (hshape : extShape ext) (hkey : ext = "" → '.' ∉ key.data)
    (hcount : (names.filter (fun nm =>
      (lowerChars (key ++ "_v").data).isPrefixOf (lowerChars nm.data))).length ≤ pageSize) :
    ∃ v : Nat,
      resolve_versioned_filename names (key ++ "_v1" ++ ext) =
        some (key ++ "_v" ++ toString v ++ ext, v) ∧
      1 ≤ v ∧ v ∉ specUsedVersions names key ext ∧
      (∀ w, 1 ≤ w → w < v → w ∈ specUsedVersions names key ext) := by
  unfold resolve_versioned_filename
  rw [resolve_splits hshape hkey]
  dsimp only
  rw [resolve_trailing key]
  set used := (driveListPage names ((String.mk key.data) ++ "_v")).filterMap
    (versionOfName (lowerChars key.data) (lowerChars ext.data)) with hused
  obtain ⟨h1, h2, h3⟩ := nextFreeAux_full_spec used 1
  refine ⟨nextFreeAux (used.length + 1) used 1, rfl, h2, ?_, ?_⟩
  · intro hmem
    exact h1 ((mem_page_used_iff_spec hshape hcount).mpr hmem)
  · intro w hw1 hw2
    exact (mem_page_used_iff_spec hshape hcount).mp (h3 w hw1 hw2)

/-- `N` successive uploads of the same key and extension: each step
resolves a versioned name against the namespace, uploads (adding the
resolved name to the namespace), and records the assigned version. -/
def uploadIter (key ext : String) (ns : List String) : Nat → List String × List Nat
  | 0 => (ns, [])
  | N + 1 =>
    match resolve_versioned_filename ns (key ++ "_v1" ++ ext) with
    | some (nm, v) =>
        let r := uploadIter key ext (ns ++ [nm]) N
        (r.1, v :: r.2)
    | none => (ns, [])

theorem lowerChars_cons_dot (t : List Char) :
    lowerChars ('.' :: t) = '.' :: lowerChars t := by
  unfold lowerChars
  rw [List.map_cons, show Char.toLower '.' = '.' from by decide]

/-- The spec-side version extraction applied to a name generated by the
resolver yields exactly the generated version. -/
theorem versionOfName_generated (key ext : String) (v : Nat) (hshape : extShape ext) :
    versionOfName (lowerChars key.data ++ ['_', 'v']) (lowerChars ext.data)
      (key ++ "_v" ++ toString v ++ ext) = some v := by
  have hdigits := toString_nat_digits v
  have hdne := toString_nat_ne_nil v
  have hlow : lowerChars (key ++ "_v" ++ toString v ++ ext).data =
      (lowerChars key.data ++ '_' :: 'v' :: (toString v).data) ++ lowerChars ext.data := by
    simp only [String.data_append, lowerChars_append]
    rw [lowerChars_digits hdigits, show lowerChars "_v".data = ['_', 'v'] from by decide]
    simp
  apply versionOfName_eq_some_iff.mpr
  rcases hshape with rfl | ⟨t, ht, _⟩
  · have hextnil : lowerChars ("" : String).data = [] := rfl
    have hstem : stemOf (lowerChars (key ++ "_v" ++ toString v ++ ("" : String)).data)
        (lowerChars ("" : String).data) =
        lowerChars key.data ++ '_' :: 'v' :: (toString v).data := by
      unfold stemOf
      rw [if_neg (by simp [hextnil])]
      rw [hlow, hextnil, List.append_nil]
    refine ⟨Or.inl hextnil, ?_, ?_⟩
    · rw [hstem]
      have : lowerChars key.data ++ '_' :: 'v' :: (toString v).data =
          (lowerChars key.data ++ ['_', 'v']) ++ (toString v).data := by simp
      rw [this]
      exact List.prefix_append ..
    · rw [hstem, trailingVersionSplit_append hdne hdigits, natFromDigits_toString]
      exact ⟨_, rfl⟩
  · have hextne : lowerChars ext.data ≠ [] := by
      rw [ht, lowerChars_cons_dot]
      simp
    have hsuffix : lowerChars ext.data <:+ lowerChars (key ++ "_v" ++ toString v ++ ext).data := by
      rw [hlow]
      exact List.suffix_append ..
    have hstem : stemOf (lowerChars (key ++ "_v" ++ toString v ++ ext).data)
        (lowerChars ext.data) =
        lowerChars key.data ++ '_' :: 'v' :: (toString v).data := by
      rw [hlow]
      exact stemOf_append hextne
    refine ⟨Or.inr hsuffix, ?_, ?_⟩
    · rw [hstem]
      have : lowerChars key.data ++ '_' :: 'v' :: (toString v).data =
          (lowerChars key.data ++ ['_', 'v']) ++ (toString v).data := by simp
      rw [this]
      exact List.prefix_append ..
    · rw [hstem, trailingVersionSplit_append hdne hdigits, natFromDigits_toString]
      exact ⟨_, rfl⟩

/-- Starting from a namespace whose used versions for the key are exactly
`{1, ..., k}`, `N` iterated uploads are assigned versions
`k+1, ..., k+N`. -/
theorem uploadIter_versions (key ext : String) (hshape : extShape ext)
    (hkey : ext = "" → '.' ∉ key.data) :
    ∀ (N : Nat) (ns : List String) (k : Nat),
      (∀ w, w ∈ specUsedVersions ns key ext ↔ 1 ≤ w ∧ w ≤ k) →
      (ns.filter (fun nm =>
        (lowerChars (key ++ "_v").data).isPrefixOf (lowerChars nm.data))).length + N ≤ pageSize →
      (uploadIter key ext ns N).2 = List.range' (k + 1) N
  | 0, ns, k => by
    intro hspec hcount
    rfl
  | N + 1, ns, k => by
    intro hspec hcount
    obtain ⟨v, hres, hv1, hvnot, hvmin⟩ :=
      resolve_one_page_core ns key ext hshape hkey (by omega)
    have hvk : v = k + 1 := by
      rcases Nat.lt_or_ge v (k + 1) with h | h
      · exact absurd ((hspec v).mpr ⟨hv1, by omega⟩) hvnot
      · rcases Nat.eq_or_lt_of_le h with h' | h'
        · omega
        · have := (hspec (k + 1)).mp (hvmin (k + 1) (by omega) h')
          omega
    subst hvk
    rw [uploadIter, hres]
    dsimp only
    have hgen := versionOfName_generated key ext (k + 1) hshape
    have hspec' : ∀ w, w ∈ specUsedVersions
        (ns ++ [key ++ "_v" ++ toString (k + 1) ++ ext]) key ext ↔ 1 ≤ w ∧ w ≤ k + 1 := by
      intro w
      unfold specUsedVersions
      rw [List.filterMap_append]
      constructor
      · intro hw
        rcases List.mem_append.mp hw with hw | hw
        · have := (hspec w).mp hw
          exact ⟨this.1, by omega⟩
        · simp only [List.filterMap_cons, hgen, List.filterMap_nil] at hw
          rcases List.mem_singleton.mp (by simpa using hw) with rfl
          omega
      · intro ⟨hw1, hw2⟩
        rcases Nat.lt_or_ge w (k + 1) with h | h
        · exact List.mem_append_left _ ((hspec w).mpr ⟨hw1, by omega⟩)
        · have hw' : w = k + 1 := by omega
          subst hw'
          refine List.mem_append_right _ ?_
          simp [List.filterMap_cons, hgen]
    have hcount' : ((ns ++ [key ++ "_v" ++ toString (k + 1) ++ ext]).filter (fun nm =>
        (lowerChars (key ++ "_v").data).isPrefixOf (lowerChars nm.data))).length + N ≤
          pageSize := by
      rw [List.filter_append]
      have hpred : (lowerChars (key ++ "_v").data).isPrefixOf
          (lowerChars (key ++ "_v" ++ toString (k + 1) ++ ext).data) = true := by
        rw [List.isPrefixOf_iff_prefix, lowerChars_key_v]
        exact fpred_of_spec_some hgen
      rw [List.length_append]
      simp only [List.filter_cons, hpred, List.filter_nil, if_true]
      simp only [List.length_cons, List.length_nil]
      omega
    rw [uploadIter_versions key ext hshape hkey N _ (k + 1) hspec' hcount']
    rfl

/-- A destination namespace of 1001 names that all match the backend
filter for key `k` and extension `.m`: one full page of duplicates of
`k_v1.m` (Drive folders allow duplicate names) plus `k_v2.m`, which does
not fit on the single requested page. -/
def cexNamespace : List String := List.replicate 1000 "k_v1.m" ++ ["k_v2.m"]

set_option maxRecDepth 100000
set_option maxHeartbeats 2000000

/-- **C3, counterexample to the claim as stated.**  The claim promises
the smallest positive integer not occurring as a trailing `_v<N>` suffix
among existing names sharing the key and extension, for namespaces of any
size including listings larger than one backend page.  With 1001 matching
names, `resolve_versioned_filename` (which requests a single page of
`pageSize=1000` and never follows `nextPageToken`) sees only the first
1000, and returns version 2 even though `k_v2.m` already exists: the
returned version *does* occur among the existing names (the smallest
absent one is 3). -/
theorem resolve_versioned_filename_pagination_cex :
    resolve_versioned_filename cexNamespace "k_v1.m" = some ("k_v2.m", 2) ∧
      2 ∈ specUsedVersions cexNamespace "k" ".m" := by
  constructor
  · decide
  · refine List.mem_filterMap.mpr ⟨"k_v2.m", ?_, by decide⟩
    exact List.mem_append_right _ (List.mem_singleton.mpr rfl)

set_option maxRecDepth 4000
set_option maxHeartbeats 1000000

/-- **C3 (amended).**  For every destination namespace whose
backend-filter matches fit within a single listing page (at most 1000
names — the code requests one page of `pageSize=1000` and does not
paginate), NamingKey, and well-shaped extension, version resolution
returns the smallest positive integer `≥ 1` that does not occur as a
trailing `_v<N>` suffix among the existing names sharing that key and
extension (compared case-insensitively); with zero existing matches it
returns version 1, and `N` uploads sharing the same key and extension
(each successive upload resolving against the namespace extended with
the previously uploaded name) receive versions exactly `1, ..., N`. -/
theorem resolve_versioned_filename_one_page (names : List String) (key ext : String)
    (hshape : extShape ext) (hkey : ext = "" → '.' ∉ key.data)
    (hcount : (names.filter (fun nm =>
      (lowerChars (key ++ "_v").data).isPrefixOf (lowerChars nm.data))).length ≤ pageSize) :
    (∃ v : Nat,
      resolve_versioned_filename names (key ++ "_v1" ++ ext) =
        some (key ++ "_v" ++ toString v ++ ext, v) ∧
      1 ≤ v ∧ v ∉ specUsedVersions names key ext ∧
      (∀ w, 1 ≤ w → w < v → w ∈ specUsedVersions names key ext) ∧
      (specUsedVersions names key ext = [] → v = 1)) ∧
    (∀ N : Nat, specUsedVersions names key ext = [] →
      (names.filter (fun nm =>
        (lowerChars (key ++ "_v").data).isPrefixOf (lowerChars nm.data))).length + N ≤
          pageSize →
      (uploadIter key ext names N).2 = List.range' 1 N) := by
  constructor
  · obtain ⟨v, hres, h1, hnot, hmin⟩ := resolve_one_page_core names key ext hshape hkey hcount
    refine ⟨v, hres, h1, hnot, hmin, ?_⟩
    intro hempty
    by_contra hne
    have h2 : 1 < v := by omega
    have := hmin 1 (Nat.le_refl 1) h2
    rw [hempty] at this
    simp at this
  · intro N hempty hcount'
    have hspec : ∀ w, w ∈ specUsedVersions names key ext ↔ 1 ≤ w ∧ w ≤ 0 := by
      intro w
      rw [hempty]
      simp
      omega
    exact uploadIter_versions key ext hshape hkey N names 0 hspec hcount'

/-- Witness for C3 (amended): with an empty namespace the resolver
assigns version 1. -/
theorem resolve_versioned_filename_one_page_witness :
    resolve_versioned_filename [] ("k" ++ "_v1" ++ ".m") =
      some ("k" ++ "_v" ++ toString 1 ++ ".m", 1) := by
  obtain ⟨⟨v, hres, _, _, _, hone⟩, _⟩ :=
    resolve_versioned_filename_one_page [] "k" ".m"
      (Or.inr ⟨"m".data, rfl, by decide⟩)
      (fun h => absurd h (by decide))
      (by decide)
  rw [hone rfl] at hres
  exact hres

/-! ### Deletion fallback state machine (`drive_ops.delete_drive_file`) -/

/-- Terminal outcome of a deletion attempt. -/
inductive DelOutcome
  | deleted
  | trashed
  | quarantined
  deriving DecidableEq, Repr

/-- Externally determined behaviour of the Drive backend during one
deletion attempt: the capability read (`none` models the read raising),
whether the hard delete / trash / move calls succeed, and what the
parents fetch returns (`none` models the fetch raising). -/
structure DelBackend where
  caps : Option (Bool × Bool)
  hardDeleteOk : Bool
  trashOk : Bool
  parents : Option (List String)
  moveOk : Bool
  deriving Repr

/-- Result of `delete_drive_file`: the outcome (`none` models the final
`PermissionError`), which tiers were attempted, and the parents passed as
`removeParents` to the quarantine move. -/
structure DelResult where
  outcome : Option DelOutcome
  attemptedDelete : Bool
  attemptedTrash : Bool
  attemptedMove : Bool
  removedParents : List String
  deriving Repr

/-- `drive_ops.delete_drive_file`: read capabilities (defaulting both to
`true` if the read fails), skip tiers 1-2 when both `canDelete` and
`canTrash` are reported false, try hard delete then trash, then — only
when a (truthy) `fallback_remove_parent_id` was supplied — move the file
to the quarantine folder, preferring to remove just the intake parent
when it is among the current parents; raise `PermissionError` if
everything remaining fails. -/
def delete_drive_file (b : DelBackend) (fallbackRemoveParentId : Option String) :
    DelResult :=
  let canDelete := match b.caps with
    | some ct => ct.1
    | none => true
  let canTrash := match b.caps with
    | some ct => ct.2
    | none => true
  let skip := !canDelete && !canTrash
  if !skip && b.hardDeleteOk then
    { outcome := some .deleted, attemptedDelete := true, attemptedTrash := false,
      attemptedMove := false, removedParents := [] }
  else if !skip && b.trashOk then
    { outcome := some .trashed, attemptedDelete := true, attemptedTrash := true,
      attemptedMove := false, removedParents := [] }
  else if (fallbackRemoveParentId.getD "") ≠ "" then
    let pid := fallbackRemoveParentId.getD ""
    let currentParents := b.parents.getD []
    let removeParents :=
      if currentParents ≠ [] ∧ pid ∈ currentParents then [pid]
      else currentParents
    if b.moveOk then
      { outcome := some .quarantined, attemptedDelete := !skip, attemptedTrash := !skip,
        attemptedMove := true, removedParents := removeParents }
    else
      { outcome := none, attemptedDelete := !skip, attemptedTrash := !skip,
        attemptedMove := true, removedParents := removeParents }
  else
    { outcome := none, attemptedDelete := !skip, attemptedTrash := !skip,
      attemptedMove := false, removedParents := [] }

/-- **C4.**  For every deletion attempt: if the backend reports both
`canDelete=false` and `canTrash=false`, the hard-delete and trash tiers
are not attempted and the attempt proceeds directly to the quarantine
move, yielding outcome `Quarantined` when the move succeeds; if
capability information cannot be read, the hard-delete tier is attempted
anyway (and the trash tier whenever hard delete fails), instead of
skipping to quarantine. -/
theorem delete_drive_file_capability_short_circuit
    (b : DelBackend) (fp : Option String) :
    (b.caps = some (false, false) →
      (delete_drive_file b fp).attemptedDelete = false ∧
      (delete_drive_file b fp).attemptedTrash = false ∧
      ((fp.getD "") ≠ "" → (delete_drive_file b fp).attemptedMove = true) ∧
      ((fp.getD "") ≠ "" → b.moveOk = true →
        (delete_drive_file b fp).outcome = some .quarantined)) ∧
    (b.caps = none →
      (delete_drive_file b fp).attemptedDelete = true ∧
      (b.hardDeleteOk = false → (delete_drive_file b fp).attemptedTrash = true)) := by
  obtain ⟨caps, hd, ht, par, mv⟩ := b
  constructor
  · intro hcaps
    simp only at hcaps
    subst hcaps
    cases hd <;> cases ht <;> cases mv <;>
      by_cases hfp : (fp.getD "") = "" <;>
      simp_all [delete_drive_file]
  · intro hcaps
    simp only at hcaps
    subst hcaps
    cases hd <;> cases ht <;> cases mv <;>
      by_cases hfp : (fp.getD "") = "" <;>
      simp_all [delete_drive_file]

/-- Witness for C4. -/
theorem delete_drive_file_capability_short_circuit_witness :
    (delete_drive_file ⟨some (false, false), true, true, some ["intake"], true⟩
        (some "intake")).outcome = some .quarantined ∧
    (delete_drive_file ⟨none, false, true, some [], true⟩
        (some "intake")).attemptedTrash = true :=
  ⟨(delete_drive_file_capability_short_circuit
      ⟨some (false, false), true, true, some ["intake"], true⟩ (some "intake")).1 rfl
      |>.2.2.2 (by decide) rfl,
   (delete_drive_file_capability_short_circuit
      ⟨none, false, true, some [], true⟩ (some "intake")).2 rfl |>.2 rfl⟩

/-- **C10.**  If the hard-delete and trash tiers both fail or are skipped
and no fallback (quarantine) parent folder id was supplied (`None` or the
falsy empty string), the operation raises `PermissionError` (outcome
`none`) without attempting the quarantine move; conversely the quarantine
tier is only ever attempted when a non-empty fallback parent id was
provided. -/
theorem delete_drive_file_no_fallback (b : DelBackend) (fp : Option String) :
    ((fp.getD "") = "" →
      (delete_drive_file b fp).attemptedMove = false ∧
      ((b.caps = some (false, false) ∨ (b.hardDeleteOk = false ∧ b.trashOk = false)) →
        (delete_drive_file b fp).outcome = none)) ∧
    ((delete_drive_file b fp).attemptedMove = true → (fp.getD "") ≠ "") := by
  obtain ⟨caps, hd, ht, par, mv⟩ := b
  constructor
  · intro hfp
    rcases caps with _ | ⟨cd, ct⟩
    · cases hd <;> cases ht <;> cases mv <;> simp_all [delete_drive_file]
    · cases cd <;> cases ct <;> cases hd <;> cases ht <;> cases mv <;>
        simp_all [delete_drive_file]
  · intro hmove
    by_contra hfp
    rcases caps with _ | ⟨cd, ct⟩
    · cases hd <;> cases ht <;> cases mv <;> simp_all [delete_drive_file]
    · cases cd <;> cases ct <;> cases hd <;> cases ht <;> cases mv <;>
        simp_all [delete_drive_file]

/-- Witness for C10. -/
theorem delete_drive_file_no_fallback_witness :
    (delete_drive_file ⟨some (true, true), false, false, some [], true⟩ none).attemptedMove
        = false ∧
    (delete_drive_file ⟨some (true, true), false, false, some [], true⟩ none).outcome
        = none :=
  ⟨((delete_drive_file_no_fallback ⟨some (true, true), false, false, some [], true⟩
      none).1 rfl).1,
   ((delete_drive_file_no_fallback ⟨some (true, true), false, false, some [], true⟩
      none).1 rfl).2 (Or.inr ⟨rfl, rfl⟩)⟩

/-! ### Row scanner (`processor._iter_unprocessed_rows`) -/

/-- `str.upper()` on a character list (ASCII model). -/
def upperChars (l : List Char) : List Char := l.map Char.toUpper

/-- `FormCols` column count: `INPUT_FORM_COL_COUNT = 11`. -/
def INPUT_FORM_COL_COUNT : Nat := 11

/-- `PROCESSED_INDEX = INPUT_FORM_COL_COUNT + 1` (1-based column of the
processed flag). -/
def PROCESSED_INDEX : Nat := INPUT_FORM_COL_COUNT + 1

/-- `while len(row) < processed_col: row.append("")`: pad the row with
empty cells up to `col` columns. -/
def padTo (row : List String) (col : Nat) : List String :=
  row ++ List.replicate (col - row.length) ""

/-- `(row[processed_col - 1] or "").strip().upper() == "X"` on a padded
row: the commit flag is set. -/
def isProcessedFlag (row : List String) (col : Nat) : Bool :=
  upperChars (stripChars (row.getD (col - 1) "").data) = ['X']

/-- The loop body of `_iter_unprocessed_rows` over the data rows, with
`i` the sheet row number of the next row (`enumerate(values[1:],
start=2)`). -/
def iterAux (col : Nat) : Nat → List (List String) → List (Nat × List String)
  | _, [] => []
  | i, row :: rest =>
      (if isProcessedFlag (padTo row col) col then []
       else [(i, padTo row col)]) ++ iterAux col (i + 1) rest

/-- `processor._iter_unprocessed_rows`: read all values, skip the header
row, pad each data row to the processed column, and yield
`(row_num, row)` for every row whose processed flag is not `X`. -/
def iter_unprocessed_rows (values : List (List String)) (col : Nat) :
    List (Nat × List String) :=
  iterAux col 2 (values.drop 1)

theorem iterAux_mem_iff {col : Nat} :
    ∀ {data : List (List String)} {i : Nat} {pos : Nat} {row : List String},
      ((pos, row) ∈ iterAux col i data ↔
        ∃ j, j < data.length ∧ pos = i + j ∧
          row = padTo (data.getD j []) col ∧
          isProcessedFlag (padTo (data.getD j []) col) col = false)
  | [], i, pos, row => by
    simp [iterAux]
  | r :: rest, i, pos, row => by
    rw [iterAux]
    constructor
    · intro h
      rcases List.mem_append.mp h with h | h
      · split at h
        · simp at h
        · next hflag =>
          rw [List.mem_singleton] at h
          rw [Prod.mk.injEq] at h
          exact ⟨0, by simp, by omega, by simp [h.2], by
            simpa [Bool.not_eq_true] using hflag⟩
      · obtain ⟨j, hj, hpos, hrow, hflag⟩ := iterAux_mem_iff.mp h
        exact ⟨j + 1, by simpa using hj, by omega, by simpa using hrow,
          by simpa using hflag⟩
    · intro ⟨j, hj, hpos, hrow, hflag⟩
      cases j with
      | zero =>
        refine List.mem_append_left _ ?_
        simp only [List.getD_cons_zero] at hrow hflag
        rw [if_neg (by simp [hflag])]
        simp [hpos, hrow]
      | succ j =>
        refine List.mem_append_right _ ?_
        refine iterAux_mem_iff.mpr ⟨j, by simpa using hj, by omega, ?_, ?_⟩
        · simpa using hrow
        · simpa using hflag

/-- **C5.**  The Row Scanner yields a `(position, fields)` pair exactly
for the data rows (header excluded) whose commit-flag cell, after
trimming and case-normalisation, is not the canonical done marker `X` —
in particular for rows whose flag cell is unset (empty); `position` is
the row's 1-based index in the underlying sheet (the header being row 1,
so data rows start at 2), and rows shorter than the fixed column count
are yielded padded with empty trailing cells up to the processed column
(so all `INPUT_FORM_COL_COUNT` input fields are present). -/
theorem iter_unprocessed_rows_spec (values : List (List String)) (pos : Nat)
    (row : List String) :
    (pos, row) ∈ iter_unprocessed_rows values PROCESSED_INDEX ↔
      2 ≤ pos ∧ pos ≤ values.length ∧
      row = padTo (values.getD (pos - 1) []) PROCESSED_INDEX ∧
      isProcessedFlag row PROCESSED_INDEX = false ∧
      INPUT_FORM_COL_COUNT ≤ row.length := by
  unfold iter_unprocessed_rows
  rw [iterAux_mem_iff]
  constructor
  · intro ⟨j, hj, hpos, hrow, hflag⟩
    rw [List.length_drop] at hj
    have hget : (values.drop 1).getD j [] = values.getD (pos - 1) [] := by
      rcases values with _ | ⟨hd, tl⟩
      · simp at hj
      · simp only [List.drop_one, List.tail_cons] at *
        have : pos - 1 = j + 1 := by omega
        rw [this]
        simp
    rw [hget] at hrow hflag
    refine ⟨by omega, by omega, hrow, by rw [hrow]; exact hflag, ?_⟩
    rw [hrow]
    unfold padTo PROCESSED_INDEX INPUT_FORM_COL_COUNT
    simp only [List.length_append, List.length_replicate]
    omega
  · intro ⟨hpos2, hposlen, hrow, hflag, _⟩
    refine ⟨pos - 2, ?_, by omega, ?_, ?_⟩
    · rw [List.length_drop]
      omega
    · rcases values with _ | ⟨hd, tl⟩
      · simp at hposlen
        omega
      · simp only [List.drop_one, List.tail_cons]
        have h1 : pos - 1 = (pos - 2) + 1 := by omega
        rw [hrow, h1]
        simp
    · rcases values with _ | ⟨hd, tl⟩
      · simp at hposlen
        omega
      · simp only [List.drop_one, List.tail_cons]
        have h1 : pos - 1 = (pos - 2) + 1 := by omega
        rw [h1] at hrow
        simp only [List.getD_cons_succ] at hrow
        rw [← hrow]
        exact hflag

/-- Witness for C5: a concrete two-row sheet (one done, one pending)
yields exactly the pending row at position 3, padded. -/
theorem iter_unprocessed_rows_spec_witness :
    (3, padTo ["r2"] PROCESSED_INDEX) ∈
      iter_unprocessed_rows [["h"], ["a", "b", "c", "d", "e", "f", "g", "h", "i", "j",
        "k", "x"], ["r2"]] PROCESSED_INDEX :=
  (iter_unprocessed_rows_spec _ 3 _).mpr
    ⟨by omega, by decide, by decide, by decide, by decide⟩

/-! ### Submission-log append and resort
(`processor._append_and_sort_submission_log_row`) -/

/-- `any((c or "").strip() for c in r)`: the row has a non-blank cell. -/
def nonBlankRow (r : List String) : Bool :=
  r.any (fun c => !(stripChars c.data).isEmpty)

/-- `int((r[5] or "").strip())` with any failure mapped to 0
(`_version_num`).  Python's `int` accepts an optional sign and digits
(we omit its underscore-separator extension, which the ledger never
produces since version cells are written with `str(int(...))`). -/
def pyParseIntOpt (l : List Char) : Option Int :=
  match l with
  | '+' :: rest =>
      if rest ≠ [] ∧ rest.all Char.isDigit then some (natFromDigits rest) else none
  | '-' :: rest =>
      if rest ≠ [] ∧ rest.all Char.isDigit then some (-(natFromDigits rest : Int)) else none
  | _ => if l ≠ [] ∧ l.all Char.isDigit then some (natFromDigits l) else none

/-- `_version_num(r)`. -/
def versionNum (r : List String) : Int :=
  match pyParseIntOpt (stripChars (r.getD 5 "").data) with
  | some n => n
  | none => 0

/-- `_partnership_key(r)`: `(r[1] or "").strip().casefold()`, as code
points (`casefold` modelled like `lower`; gspread's `get_all_values`
returns a rectangular grid, so the cell read is modelled total). -/
def partnershipKey (r : List String) : List Nat :=
  (lowerChars (stripChars (r.getD 1 "").data)).map Char.toNat

/-- Python's lexicographic `<` on strings, on their code-point lists. -/
def codeListLt : List Nat → List Nat → Bool
  | [], [] => false
  | [], _ :: _ => true
  | _ :: _, [] => false
  | a :: as, b :: bs =>
      if a < b then true
      else if b < a then false
      else codeListLt as bs

/-- Python's tuple comparison on the sort key
`(_partnership_key(r), -_version_num(r))`: partnership ascending
(case-insensitive), then version descending. -/
def rowKeyLeB (a b : List String) : Bool :=
  if codeListLt (partnershipKey a) (partnershipKey b) then true
  else if codeListLt (partnershipKey b) (partnershipKey a) then false
  else versionNum b ≤ versionNum a

/-- The sort relation as a (decidable) proposition. -/
def rowKeyLe (a b : List String) : Prop := rowKeyLeB a b = true

instance : DecidableRel rowKeyLe := fun a b =>
  inferInstanceAs (Decidable (rowKeyLeB a b = true))

theorem codeListLt_irrefl : ∀ x : List Nat, codeListLt x x = false
  | [] => rfl
  | a :: as => by
    rw [codeListLt, if_neg (by omega), if_neg (by omega)]
    exact codeListLt_irrefl as

theorem codeListLt_eq_of_not : ∀ {x y : List Nat},
    codeListLt x y = false → codeListLt y x = false → x = y
  | [], [] => fun _ _ => rfl
  | [], _ :: _ => by intro h _; simp [codeListLt] at h
  | _ :: _, [] => by intro _ h; simp [codeListLt] at h
  | a :: as, b :: bs => by
    intro h1 h2
    rw [codeListLt] at h1 h2
    by_cases hab : a < b
    · rw [if_pos hab] at h1; simp at h1
    · by_cases hba : b < a
      · rw [if_pos hba] at h2; simp at h2
      · have heq : a = b := by omega
        rw [if_neg hab, if_neg (by omega)] at h1
        rw [if_neg hba, if_neg (by omega)] at h2
        rw [heq, codeListLt_eq_of_not h1 h2]

theorem codeListLt_nil_right : ∀ x : List Nat, codeListLt x [] = false
  | [] => rfl
  | _ :: _ => rfl

theorem codeListLt_asymm : ∀ {x y : List Nat},
    codeListLt x y = true → codeListLt y x = false
  | [], [] => by intro h; simp [codeListLt] at h
  | [], _ :: _ => fun _ => rfl
  | _ :: _, [] => by intro h; simp [codeListLt] at h
  | a :: as, b :: bs => by
    intro h
    rw [codeListLt] at h ⊢
    by_cases hab : a < b
    · rw [if_neg (by omega), if_pos hab]
    · by_cases hba : b < a
      · rw [if_neg hab, if_pos hba] at h
        simp at h
      · rw [if_neg hab, if_neg hba] at h
        rw [if_neg hba, if_neg hab]
        exact codeListLt_asymm h

theorem codeListLt_trans : ∀ {x y z : List Nat},
    codeListLt x y = true → codeListLt y z = true → codeListLt x z = true
  | x, [], z => fun h1 _ => absurd h1 (by simp [codeListLt_nil_right])
  | x, _ :: _, [] => fun _ h2 => absurd h2 (by simp [codeListLt_nil_right])
  | [], _ :: _, _ :: _ => fun _ _ => rfl
  | a :: as, b :: bs, c :: cs => by
    intro h1 h2
    rw [codeListLt] at h1 h2 ⊢
    by_cases hab : a < b
    · by_cases hbc : b < c
      · rw [if_pos (by omega)]
      · by_cases hcb : c < b
        · rw [if_neg hbc, if_pos hcb] at h2
          simp at h2
        · rw [if_pos (by omega)]
    · by_cases hba : b < a
      · rw [if_neg hab, if_pos hba] at h1
        simp at h1
      · by_cases hbc : b < c
        · rw [if_pos (by omega)]
        · by_cases hcb : c < b
          · rw [if_neg hbc, if_pos hcb] at h2
            simp at h2
          · rw [if_neg hab, if_neg hba] at h1
            rw [if_neg hbc, if_neg hcb] at h2
            rw [if_neg (by omega : ¬a < c), if_neg (by omega : ¬c < a)]
            exact codeListLt_trans h1 h2

theorem rowKeyLe_iff {a b : List String} :
    rowKeyLe a b ↔
      codeListLt (partnershipKey a) (partnershipKey b) = true ∨
      (partnershipKey a = partnershipKey b ∧ versionNum b ≤ versionNum a) := by
  unfold rowKeyLe rowKeyLeB
  by_cases h1 : codeListLt (partnershipKey a) (partnershipKey b) = true
  · rw [if_pos h1]
    simp [h1]
  · rw [if_neg h1]
    by_cases h2 : codeListLt (partnershipKey b) (partnershipKey a) = true
    · rw [if_pos h2]
      constructor
      · intro h
        simp at h
      · intro h
        rcases h with h | ⟨heq, _⟩
        · exact absurd h h1
        · rw [heq, codeListLt_irrefl] at h2
          simp at h2
    · rw [if_neg h2]
      have heq := codeListLt_eq_of_not (Bool.not_eq_true _ ▸ h1) (Bool.not_eq_true _ ▸ h2)
      rw [decide_eq_true_eq]
      constructor
      · intro h
        exact Or.inr ⟨heq, h⟩
      · rintro (h | ⟨_, hv⟩)
        · exact absurd h h1
        · exact hv

instance : IsTotal (List String) rowKeyLe := by
  constructor
  intro a b
  rw [rowKeyLe_iff, rowKeyLe_iff]
  by_cases h1 : codeListLt (partnershipKey a) (partnershipKey b) = true
  · exact Or.inl (Or.inl h1)
  · by_cases h2 : codeListLt (partnershipKey b) (partnershipKey a) = true
    · exact Or.inr (Or.inl h2)
    · have heq := codeListLt_eq_of_not (Bool.not_eq_true _ ▸ h1) (Bool.not_eq_true _ ▸ h2)
      rcases Int.le_total (versionNum b) (versionNum a) with h | h
      · exact Or.inl (Or.inr ⟨heq, h⟩)
      · exact Or.inr (Or.inr ⟨heq.symm, h⟩)

instance : IsTrans (List String) rowKeyLe := by
  constructor
  intro a b c hab hbc
  rw [rowKeyLe_iff] at hab hbc ⊢
  rcases hab with hab | ⟨haeq, hav⟩
  · rcases hbc with hbc | ⟨hbeq, _⟩
    · exact Or.inl (codeListLt_trans hab hbc)
    · exact Or.inl (hbeq ▸ hab)
  · rcases hbc with hbc | ⟨hbeq, hbv⟩
    · exact Or.inl (haeq ▸ hbc)
    · exact Or.inr ⟨haeq.trans hbeq, Int.le_trans hbv hav⟩

/-- The row appended by `_append_and_sort_submission_log_row` (with the
timestamp already a string; `gspread`'s `append_row` stringifies the
integer version with `str`). -/
def logRow (ts partnership division routine descriptor : String) (version : Int) :
    List String :=
  [ts, partnership, pyStrip division, pyStrip routine, pyStrip descriptor,
    toString version]

/-- `processor._append_and_sort_submission_log_row` on a worksheet
modelled as its list of rows (header first): append the row; if the
sheet has more than two rows, re-read it, keep the non-blank data rows,
sort them by the partnership/version key, and rewrite rows
`2 .. 1+len(data)` (`batch_clear` + `update` over `A2:F{end}`); any rows
below the rewritten region keep their previous contents. -/
def append_and_sort_submission_log_row (ws : List (List String))
    (ts partnership division routine descriptor : String) (version : Int) :
    List (List String) :=
  if (ws ++ [logRow ts partnership division routine descriptor version]).length ≤ 2 then
    ws ++ [logRow ts partnership division routine descriptor version]
  else if ((ws ++ [logRow ts partnership division routine descriptor version]).drop 1).filter
      nonBlankRow = [] then
    ws ++ [logRow ts partnership division routine descriptor version]
  else
    (ws ++ [logRow ts partnership division routine descriptor version]).take 1 ++
      List.insertionSort rowKeyLe
        (((ws ++ [logRow ts partnership division routine descriptor version]).drop 1).filter
          nonBlankRow) ++
      ((ws ++ [logRow ts partnership division routine descriptor version]).drop 1).drop
        ((((ws ++ [logRow ts partnership division routine descriptor version]).drop 1).filter
          nonBlankRow).length)

theorem pyIsSpace_of_isDigit {c : Char} (h : c.isDigit = true) : pyIsSpace c = false := by
  have hb := isDigit_toNat h
  cases hc : pyIsSpace c
  · rfl
  · exfalso
    simp only [pyIsSpace, Bool.or_eq_true, decide_eq_true_eq] at hc
    rcases hc with ((((rfl | rfl) | rfl) | rfl) | rfl) | rfl <;> exact absurd hb (by decide)

theorem dropWhile_eq_self_of_none {p : Char → Bool} {m : List Char}
    (hm : ∀ c ∈ m, p c = false) : m.dropWhile p = m := by
  cases m with
  | nil => rfl
  | cons c r =>
    rw [List.dropWhile_cons, if_neg (by simp [hm c (List.mem_cons_self ..)])]

theorem stripChars_of_nonspace {l : List Char} (h : ∀ c ∈ l, pyIsSpace c = false) :
    stripChars l = l := by
  unfold stripChars
  rw [dropWhile_eq_self_of_none h,
    dropWhile_eq_self_of_none (fun c hc => h c (List.mem_reverse.mp hc)),
    List.reverse_reverse]

theorem int_toString_data (v : Int) :
    (toString v).data ≠ [] ∧ ∀ c ∈ (toString v).data, pyIsSpace c = false := by
  cases v with
  | ofNat m =>
    have hd : (toString (Int.ofNat m)).data = (toString m).data := rfl
    rw [hd]
    exact ⟨toString_nat_ne_nil m, fun c hc => pyIsSpace_of_isDigit (toString_nat_digits m c hc)⟩
  | negSucc m =>
    have hd : (toString (Int.negSucc m)).data = '-' :: (toString (m + 1)).data := rfl
    rw [hd]
    refine ⟨by simp, ?_⟩
    intro c hc
    rcases List.mem_cons.mp hc with rfl | hc
    · rfl
    · exact pyIsSpace_of_isDigit (toString_nat_digits (m + 1) c hc)

theorem nonBlank_logRow (ts p dv rt de : String) (v : Int) :
    nonBlankRow (logRow ts p dv rt de v) = true := by
  obtain ⟨hne, hns⟩ := int_toString_data v
  unfold nonBlankRow
  rw [List.any_eq_true]
  refine ⟨toString v, by simp [logRow], ?_⟩
  rw [stripChars_of_nonspace hns]
  simpa using hne

theorem sorted_of_length_le_one {α : Type _} {R : α → α → Prop} {l : List α}
    (h : l.length ≤ 1) : List.Sorted R l := by
  match l, h with
  | [], _ => exact List.sorted_nil
  | [x], _ => exact List.sorted_singleton x

/-- A ledger sheet containing a blank data row between the header and an
existing entry. -/
def c6CexSheet : List (List String) :=
  [["Timestamp", "Partnership", "Division", "Routine Name", "Descriptor", "Version"],
   ["", "", "", "", "", ""],
   ["t", "Zed & Z", "D", "R", "X", "1"]]

/-- **C6, counterexample to the claim as stated.**  On a category sheet
with a blank data row, appending `Bob & B` (version 2) and resorting
(which completes without error) leaves the sheet as
`[header, Bob, Zed, Bob]`: the rewrite region `A2:F{1+len(data)}` does
not cover the appended copy of the row sitting below it, so the
non-blank data rows are *not* ordered by display name
ascending/version descending. -/
theorem append_and_sort_blank_row_cex :
    ¬ List.Sorted rowKeyLe
      (((append_and_sort_submission_log_row c6CexSheet "t" "Bob & B" "D" "R" "X" 2).drop
        1).filter nonBlankRow) := by decide

/-- **C6 (amended).**  After every append to a category ledger that
contains no blank data rows, followed by a successful resort, the
non-blank data rows are ordered primarily by display name (partnership)
ascending under case-insensitive comparison and secondarily by version
descending; in particular, appending display names
`["Zed & Z", "Alice & A", "Alice & A"]` with versions `[1, 3, 1]` and
then `["Bob & B", 2]` to an empty category leaves the order
`Alice & A (v3), Alice & A (v1), Bob & B (v2), Zed & Z (v1)`. -/
theorem append_and_sort_sorted (ws : List (List String))
    (ts p dv rt de : String) (v : Int)
    (hnb : ∀ r ∈ ws.drop 1, nonBlankRow r = true) :
    List.Sorted rowKeyLe
      (((append_and_sort_submission_log_row ws ts p dv rt de v).drop 1).filter
        nonBlankRow) ∧
    append_and_sort_submission_log_row
      (append_and_sort_submission_log_row
        (append_and_sort_submission_log_row
          (append_and_sort_submission_log_row
            [["Timestamp", "Partnership", "Division", "Routine Name", "Descriptor",
              "Version"]]
            "t" "Zed & Z" "D" "R" "X" 1)
          "t" "Alice & A" "D" "R" "X" 3)
        "t" "Alice & A" "D" "R" "X" 1)
      "t" "Bob & B" "D" "R" "X" 2 =
      [["Timestamp", "Partnership", "Division", "Routine Name", "Descriptor", "Version"],
       ["t", "Alice & A", "D", "R", "X", "3"],
       ["t", "Alice & A", "D", "R", "X", "1"],
       ["t", "Bob & B", "D", "R", "X", "2"],
       ["t", "Zed & Z", "D", "R", "X", "1"]] := by
  constructor
  · unfold append_and_sort_submission_log_row
    split
    · next h2 =>
      apply sorted_of_length_le_one
      have hf := List.length_filter_le nonBlankRow
        ((ws ++ [logRow ts p dv rt de v]).drop 1)
      rw [List.length_drop] at hf
      omega
    · next h2 =>
      split
      · next hdata =>
        exfalso
        have hws1 : 1 ≤ ws.length := by
          rw [List.length_append] at h2
          simp only [List.length_singleton] at h2
          omega
        have hmem : logRow ts p dv rt de v ∈
            (ws ++ [logRow ts p dv rt de v]).drop 1 := by
          rw [List.drop_append_of_le_length hws1]
          exact List.mem_append_right _ (List.mem_singleton.mpr rfl)
        have hin : logRow ts p dv rt de v ∈
            ((ws ++ [logRow ts p dv rt de v]).drop 1).filter nonBlankRow :=
          List.mem_filter.mpr ⟨hmem, nonBlank_logRow ts p dv rt de v⟩
        rw [hdata] at hin
        simp at hin
      · next hdata =>
        have hws1 : 1 ≤ ws.length := by
          rw [List.length_append] at h2
          simp only [List.length_singleton] at h2
          omega
        have hdrop : (ws ++ [logRow ts p dv rt de v]).drop 1 =
            ws.drop 1 ++ [logRow ts p dv rt de v] :=
          List.drop_append_of_le_length hws1
        have hall : ∀ r ∈ (ws ++ [logRow ts p dv rt de v]).drop 1,
            nonBlankRow r = true := by
          rw [hdrop]
          intro r hr
          rcases List.mem_append.mp hr with hr | hr
          · exact hnb r hr
          · rw [List.mem_singleton.mp hr]
            exact nonBlank_logRow ts p dv rt de v
        have hfilter : ((ws ++ [logRow ts p dv rt de v]).drop 1).filter nonBlankRow =
            (ws ++ [logRow ts p dv rt de v]).drop 1 :=
          List.filter_eq_self.mpr hall
        rw [hfilter, List.drop_length, List.append_nil]
        have htake : ((ws ++ [logRow ts p dv rt de v]).take 1).length = 1 := by
          rw [List.length_take]
          rw [List.length_append]
          simp only [List.length_singleton]
          omega
        rw [List.drop_append_of_le_length (Nat.le_of_eq htake.symm)]
        rw [show ((ws ++ [logRow ts p dv rt de v]).take 1).drop 1 = [] from
          List.drop_eq_nil_of_le (Nat.le_of_eq htake)]
        rw [List.nil_append]
        have hsortmem : ∀ r ∈ List.insertionSort rowKeyLe
            ((ws ++ [logRow ts p dv rt de v]).drop 1), nonBlankRow r = true := by
          intro r hr
          exact hall r ((List.perm_insertionSort rowKeyLe _).mem_iff.mp hr)
        rw [List.filter_eq_self.mpr hsortmem]
        exact List.sorted_insertionSort rowKeyLe _
  · decide

/-- Witness for C6 (amended): the blank-free hypothesis discharged on a
concrete one-entry ledger. -/
theorem append_and_sort_sorted_witness :
    List.Sorted rowKeyLe
      (((append_and_sort_submission_log_row
          [["Timestamp", "Partnership", "Division", "Routine Name", "Descriptor",
            "Version"],
           ["t", "Zed & Z", "D", "R", "X", "1"]]
          "t" "Bob & B" "D" "R" "X" 2).drop 1).filter nonBlankRow) :=
  (append_and_sort_sorted _ "t" "Bob & B" "D" "R" "X" 2 (by decide)).1

/-! ### Transfer orchestrator (`processor.process_submission_sheet`) -/

/-- `[-\w]` of the `_DRIVE_ID_RE` regex (`\w` restricted to its ASCII
part, the range Drive file ids live in). -/
def isIdChar (c : Char) : Bool := isWordChar c || c = '-'

/-- `drive_ops.extract_drive_file_id`: `_DRIVE_ID_RE.search` for
`[-\w]{25,}` — the leftmost maximal run of id characters of length at
least 25, or `None`. -/
def extract_drive_file_id (url : String) : Option String :=
  if url = "" then none
  else
    match (runsAux isIdChar url.data []).find? (fun r => 25 ≤ r.length) with
    | some r => some (String.mk r)
    | none => none

/-- `submission_schema.normalize_cell` / the sheets facade's
`normalize_row`: trim every cell (cells are already strings here). -/
def normalize_row (r : List String) : List String := r.map pyStrip

/-- The typed `Submission` record of `processor.py`. -/
structure Submission where
  timestamp : String
  leaderFirst : String
  leaderLast : String
  followerFirst : String
  followerLast : String
  division : String
  routineName : String
  personalDescriptor : String
  audioUrl : String
  deriving Repr, DecidableEq

/-- `processor._parse_submission_row`: fixed-position parse; `none`
models the `ValueError` on rows shorter than `INPUT_FORM_COL_COUNT`. -/
def parse_submission_row (r : List String) : Option Submission :=
  if r.length < INPUT_FORM_COL_COUNT then none
  else some
    { timestamp := r.getD 0 "", leaderFirst := r.getD 2 "", leaderLast := r.getD 3 "",
      followerFirst := r.getD 4 "", followerLast := r.getD 5 "",
      division := r.getD 6 "", routineName := r.getD 7 "",
      personalDescriptor := r.getD 8 "", audioUrl := r.getD 9 "" }

/-- Split a character list at every occurrence of a separator
(Python's `str.split(sep)` on a one-character separator). -/
def splitOn (sep : Char) : List Char → List (List Char)
  | [] => [[]]
  | c :: rest =>
    if c = sep then [] :: splitOn sep rest
    else
      match splitOn sep rest with
      | [] => [[c]]
      | r :: rs => (c :: r) :: rs

/-- `processor._parse_routine_season_year`: `datetime.strptime` (an
external library call) is modelled as a strict `M/D/YYYY H:M:S` parser
with basic range validation; the season year is the calendar year plus
one when the month is 11 or 12. -/
def parse_routine_season_year (timestamp : String) : Option String :=
  match splitOn ' ' (pyStrip timestamp).data with
  | [d, t] =>
    match splitOn '/' d, splitOn ':' t with
    | [m, dd, y], [hh, mi, ss] =>
        if m ≠ [] ∧ m.all Char.isDigit ∧ dd ≠ [] ∧ dd.all Char.isDigit ∧
            y ≠ [] ∧ y.all Char.isDigit ∧ hh ≠ [] ∧ hh.all Char.isDigit ∧
            mi ≠ [] ∧ mi.all Char.isDigit ∧ ss ≠ [] ∧ ss.all Char.isDigit ∧
            1 ≤ natFromDigits m ∧ natFromDigits m ≤ 12 ∧
            1 ≤ natFromDigits dd ∧ natFromDigits dd ≤ 31 ∧
            natFromDigits hh ≤ 23 ∧ natFromDigits mi ≤ 59 ∧
            natFromDigits ss ≤ 61 then
          some (toString (natFromDigits y + (if 11 ≤ natFromDigits m then 1 else 0)))
        else none
    | _, _ => none
  | _ => none

/-- Models the external renamer collaborator
(`kaiano.mp3.rename.Mp3Renamer.build_routine_filename`), mirrored from
its in-repo duplicate `file_translations.build_base_filename`: join the
already-sanitized leader, follower and division with `_`, then the
season year, then the routine and descriptor when non-empty. -/
def build_routine_filename (leader follower division routine descriptor seasonYear :
    String) : String :=
  leader ++ "_" ++ follower ++ "_" ++ division ++ "_" ++ seasonYear ++
    (if routine = "" then "" else "_" ++ routine) ++
    (if descriptor = "" then "" else "_" ++ descriptor)

/-- `ext = original.name.rsplit(".", 1)[1] if "." in original.name else ""`. -/
def extOf (name : String) : String :=
  if '.' ∈ name.data then String.mk ((name.data.reverse.takeWhile (· ≠ '.')).reverse)
  else ""

/-- Metadata of the downloaded source object (its payload bytes are
opaque to every claim and are not modelled; tagging is the in-repo
`tag_audio_bytes_preserve_previous`, which catches every exception and
returns bytes, so it can neither fail nor affect control flow). -/
structure DFile where
  name : String
  mimeType : String
  deriving Repr, DecidableEq

/-- Outcomes of the external calls made while processing one record:
`Except.error` models the call raising.  `destNames` is the listing of
the destination folder used by `resolve_versioned_filename`.  `logOk`
is the outcome of the whole best-effort `_Submitted_Music` block
(`find_or_create_spreadsheet`, tab creation, append and resort); on
success it appends exactly one ledger row. -/
structure OrchEnv where
  ensureFolder : Except Unit String
  download : Except Unit DFile
  destNames : List String
  upload : Except Unit String
  logOk : Except Unit Unit
  deleteOk : Except Unit Unit
  commitOk : Bool

/-- Observable per-record events of the orchestrator, in program
order. -/
inductive Ev where
  | skippedNoUrl
  | skippedNoId
  | failed
  | downloaded
  | uploaded (destId : String)
  | logged
  | logFailed
  | cleanupStarted (srcId : String)
  | cleanupOk
  | committed
  deriving DecidableEq, Repr

/-- The body of the per-record loop of
`processor.process_submission_sheet` as an event trace: parse and
normalize, skip on missing url or unextractable id, then
season/folder/download/resolve/upload; the ledger block is best-effort
(`logged`/`logFailed`); cleanup runs only after a successful upload and
the commit mark (`update_cell(row, processed_col, "X")`) only after
successful cleanup; any raise is caught by the per-row handler
(`failed`). -/
def processRow (env : OrchEnv) (row : List String) : List Ev :=
  match parse_submission_row (normalize_row (row.take INPUT_FORM_COL_COUNT)) with
  | none => [.failed]
  | some sub =>
    if sub.audioUrl = "" then [.skippedNoUrl]
    else
      match extract_drive_file_id sub.audioUrl with
      | none => [.skippedNoId]
      | some fid =>
        match parse_routine_season_year sub.timestamp with
        | none => [.failed]
        | some season =>
          match env.ensureFolder with
          | .error _ => [.failed]
          | .ok _ =>
            match env.download with
            | .error _ => [.failed]
            | .ok file =>
              match resolve_versioned_filename env.destNames
                  (build_routine_filename
                    (sanitizeForm sub.leaderFirst ++ sanitizeForm sub.leaderLast)
                    (sanitizeForm sub.followerFirst ++ sanitizeForm sub.followerLast)
                    (sanitizeForm sub.division) (sanitizeForm sub.routineName)
                    (sanitizeForm sub.personalDescriptor) season ++ "_v1" ++
                  (if extOf file.name = "" then "" else "." ++ extOf file.name)) with
              | none => [.downloaded, .failed]
              | some _ =>
                match env.upload with
                | .error _ => [.downloaded, .failed]
                | .ok destId =>
                  match env.deleteOk with
                  | .error _ =>
                      [.downloaded, .uploaded destId,
                        (match env.logOk with | .ok _ => Ev.logged | .error _ => .logFailed),
                        .cleanupStarted fid, .failed]
                  | .ok _ =>
                      if env.commitOk then
                        [.downloaded, .uploaded destId,
                          (match env.logOk with | .ok _ => Ev.logged | .error _ => .logFailed),
                          .cleanupStarted fid, .cleanupOk, .committed]
                      else
                        [.downloaded, .uploaded destId,
                          (match env.logOk with | .ok _ => Ev.logged | .error _ => .logFailed),
                          .cleanupStarted fid, .cleanupOk, .failed]

/-- Event classifiers. -/
def isUploadedEv : Ev → Bool
  | .uploaded _ => true
  | _ => false

def isCleanupStartedEv : Ev → Bool
  | .cleanupStarted _ => true
  | _ => false

def isCleanupOkEv : Ev → Bool
  | .cleanupOk => true
  | _ => false

def isCommittedEv : Ev → Bool
  | .committed => true
  | _ => false

def isLoggedEv : Ev → Bool
  | .logged => true
  | _ => false

/-- `allQAfterP p q tr seen`: scanning `tr`, every `q`-event is strictly
preceded by some `p`-event (`seen` records whether a `p`-event has
occurred). -/
def allQAfterP (p q : Ev → Bool) : List Ev → Bool → Bool
  | [], _ => true
  | e :: rest, seen => if q e && !seen then false else allQAfterP p q rest (seen || p e)

/-- Every `q`-event in the trace is strictly preceded by a `p`-event. -/
def eventsOrdered (p q : Ev → Bool) (tr : List Ev) : Bool :=
  allQAfterP p q tr false

/-- The audio-url field the orchestrator reads from a raw sheet row
(column 10 of the normalized, truncated row). -/
def audioUrlOfRow (row : List String) : String :=
  (normalize_row (row.take INPUT_FORM_COL_COUNT)).getD 9 ""

/-- A concrete submission row: valid timestamp, empty name fields, and
an audio url that is exactly a 25-character Drive file id. -/
def demoRow : List String :=
  ["5/19/2025 23:16:40", "", "", "", "", "", "", "", "",
    "1234567890123456789012345", ""]

/-- A concrete submission row with an empty audio-url field. -/
def demoSkipRow : List String :=
  ["5/19/2025 23:16:40", "", "", "", "", "", "", "", "", "", ""]

/-- A fully-succeeding environment for the per-record orchestrator. -/
def demoEnv : OrchEnv :=
  { ensureFolder := .ok "folder", download := .ok ⟨"song.mp3", "audio/mpeg"⟩,
    destNames := [], upload := .ok "dest1", logOk := .ok (),
    deleteOk := .ok (), commitOk := true }

/-- `demoEnv` with a failing upload step. -/
def demoUpFailEnv : OrchEnv := { demoEnv with upload := .error () }

/-- `demoEnv` with a failing ledger (Submission Log) step. -/
def demoLogFailEnv : OrchEnv := { demoEnv with logOk := .error () }

/-- C1: for every record, every cleanup start (deletion fallback
invocation on the source) is strictly preceded by a successful upload
returning a destination id, and the commit write is strictly preceded
by successful cleanup; if the upload step fails, the record is never
committed and cleanup of the source is never invoked. -/
theorem transfer_orchestrator_ordering (env : OrchEnv) (row : List String) :
    eventsOrdered isUploadedEv isCleanupStartedEv (processRow env row) = true ∧
    eventsOrdered isCleanupOkEv isCommittedEv (processRow env row) = true ∧
    (env.upload = .error () →
      Ev.committed ∉ processRow env row ∧
      ∀ fid, Ev.cleanupStarted fid ∉ processRow env row) := by
  unfold processRow
  repeat' split
  all_goals
    simp_all [eventsOrdered, allQAfterP, isUploadedEv, isCleanupStartedEv, isCleanupOkEv,
      isCommittedEv]

/-- Witness for C1: with a failing upload on a concrete valid row,
no commit and no cleanup invocation occur. -/
theorem transfer_orchestrator_ordering_witness :
    Ev.committed ∉ processRow demoUpFailEnv demoRow ∧
    ∀ fid, Ev.cleanupStarted fid ∉ processRow demoUpFailEnv demoRow :=
  (transfer_orchestrator_ordering demoUpFailEnv demoRow).2.2 rfl

/-- C7: a record (of full form width) whose audio-url field is empty,
or from which no Drive file id is extractable, is skipped: the trace
is exactly the skip event, so no commit, failure, download, upload or
cleanup occurs for it. -/
theorem unresolvable_reference_skips (env : OrchEnv) (row : List String)
    (hlen : INPUT_FORM_COL_COUNT ≤ row.length)
    (href : audioUrlOfRow row = "" ∨ extract_drive_file_id (audioUrlOfRow row) = none) :
    (processRow env row = [Ev.skippedNoUrl] ∨ processRow env row = [Ev.skippedNoId]) ∧
    Ev.committed ∉ processRow env row ∧
    Ev.failed ∉ processRow env row ∧
    Ev.downloaded ∉ processRow env row ∧
    (∀ d, Ev.uploaded d ∉ processRow env row) ∧
    (∀ fid, Ev.cleanupStarted fid ∉ processRow env row) := by
  have hnr : ¬ (normalize_row (row.take INPUT_FORM_COL_COUNT)).length < INPUT_FORM_COL_COUNT := by
    simp [normalize_row]
    omega
  simp only [audioUrlOfRow] at href
  unfold processRow
  split
  · rename_i heq
    simp [parse_submission_row, hnr] at heq
  · rename_i sub heq
    have hsub : sub.audioUrl = (normalize_row (row.take INPUT_FORM_COL_COUNT)).getD 9 "" := by
      simp only [parse_submission_row, if_neg hnr, Option.some.injEq] at heq
      rw [← heq]
    split
    · simp
    · rename_i hne
      split
      · simp
      · rename_i fid heq2
        exfalso
        rw [hsub] at hne heq2
        rcases href with h | h
        · exact hne h
        · rw [h] at heq2
          exact Option.noConfusion heq2

/-- Witness for C7: a concrete row with an empty audio-url field is
skipped with no commit, failure, download, upload or cleanup. -/
theorem unresolvable_reference_skips_witness :
    (processRow demoEnv demoSkipRow = [Ev.skippedNoUrl] ∨
      processRow demoEnv demoSkipRow = [Ev.skippedNoId]) ∧
    Ev.committed ∉ processRow demoEnv demoSkipRow ∧
    Ev.failed ∉ processRow demoEnv demoSkipRow ∧
    Ev.downloaded ∉ processRow demoEnv demoSkipRow ∧
    (∀ d, Ev.uploaded d ∉ processRow demoEnv demoSkipRow) ∧
    (∀ fid, Ev.cleanupStarted fid ∉ processRow demoEnv demoSkipRow) :=
  unresolvable_reference_skips demoEnv demoSkipRow (by decide) (Or.inl (by decide))

set_option maxHeartbeats 2000000

/-- C8: for a record that reaches a successful upload, a ledger
failure is recorded as `logFailed` but does not halt the record:
cleanup still starts, and when cleanup succeeds and the commit write
goes through, the record is still committed. -/
theorem ledger_failure_nonfatal (env : OrchEnv) (row : List String) (destId : String)
    (hup : Ev.uploaded destId ∈ processRow env row)
    (hlog : env.logOk = .error ()) :
    Ev.logFailed ∈ processRow env row ∧
    (∃ fid, Ev.cleanupStarted fid ∈ processRow env row) ∧
    (env.deleteOk = .ok () → env.commitOk = true → Ev.committed ∈ processRow env row) := by
  unfold processRow at hup ⊢
  repeat' split at hup
  all_goals simp_all

set_option maxHeartbeats 1000000

/-- Witness for C8: with a failing ledger step on a concrete valid
row, the record still starts cleanup and commits. -/
theorem ledger_failure_nonfatal_witness :
    Ev.logFailed ∈ processRow demoLogFailEnv demoRow ∧
    (∃ fid, Ev.cleanupStarted fid ∈ processRow demoLogFailEnv demoRow) ∧
    (demoLogFailEnv.deleteOk = .ok () → demoLogFailEnv.commitOk = true →
      Ev.committed ∈ processRow demoLogFailEnv demoRow) :=
  ledger_failure_nonfatal demoLogFailEnv demoRow "dest1" (by decide) rfl


/-! ### Run-level pipeline model (`processor.process_submission_sheet`) -/

/-- `sheet.update_cell(n, PROCESSED_INDEX, "X")` on the in-memory grid:
pad row `n` (1-based) to the processed column and write the marker. -/
def updateCellX (st : List (List String)) (n : Nat) : List (List String) :=
  st.set (n - 1)
    ((padTo (st.getD (n - 1) []) PROCESSED_INDEX).set (PROCESSED_INDEX - 1) "X")

/-- One iteration of the per-row loop at the state level: the commit
mark is written exactly when the record's trace reaches `committed`. -/
def foldStep (env : OrchEnv) (st : List (List String)) (e : Nat × List String) :
    List (List String) :=
  if Ev.committed ∈ processRow env e.2 then updateCellX st e.1 else st

/-- The events of one scanned row, tagged with its sheet position. -/
def rowTrace (env : OrchEnv) (e : Nat × List String) : List (Nat × Ev) :=
  (processRow env e.2).map (fun ev => (e.1, ev))

/-- The per-row loop of `process_submission_sheet`: process each
scanned row in order, marking the sheet after each committed record;
returns the final sheet state and the position-tagged event trace. -/
def runRows (env : OrchEnv) :
    List (Nat × List String) → List (List String) →
      List (List String) × List (Nat × Ev)
  | [], st => (st, [])
  | (n, row) :: rest, st =>
    ((runRows env rest
        (if Ev.committed ∈ processRow env row then updateCellX st n else st)).1,
      (processRow env row).map (fun ev => (n, ev)) ++
        (runRows env rest
          (if Ev.committed ∈ processRow env row then updateCellX st n else st)).2)

/-- `processor.process_submission_sheet` over an in-memory sheet: scan
the unprocessed rows, then run the per-row loop over them. -/
def process_submission_sheet (env : OrchEnv) (values : List (List String)) :
    List (List String) × List (Nat × Ev) :=
  runRows env (iter_unprocessed_rows values PROCESSED_INDEX) values

/-- No external call fails: folder creation, download, upload, ledger
and deletion all succeed and the commit write goes through. -/
def envOk (env : OrchEnv) : Prop :=
  (∃ f, env.ensureFolder = .ok f) ∧ (∃ d, env.download = .ok d) ∧
  (∃ u, env.upload = .ok u) ∧ env.logOk = .ok () ∧
  env.deleteOk = .ok () ∧ env.commitOk = true

/-- Count of trace events at position `n` satisfying `p`. -/
def countAt (tr : List (Nat × Ev)) (n : Nat) (p : Ev → Bool) : Nat :=
  tr.countP (fun pe => decide (pe.1 = n) && p pe.2)

theorem runRows_trace (env : OrchEnv) (entries : List (Nat × List String)) :
    ∀ st, (runRows env entries st).2 = entries.flatMap (rowTrace env) := by
  induction entries with
  | nil => intro st; simp [runRows]
  | cons e rest ih =>
    intro st
    obtain ⟨n, row⟩ := e
    simp [runRows, rowTrace, ih]

theorem runRows_state (env : OrchEnv) (entries : List (Nat × List String)) :
    ∀ st, (runRows env entries st).1 = entries.foldl (foldStep env) st := by
  induction entries with
  | nil => intro st; simp [runRows]
  | cons e rest ih =>
    intro st
    obtain ⟨n, row⟩ := e
    simp [runRows, foldStep, ih]

theorem length_updateCellX (st : List (List String)) (n : Nat) :
    (updateCellX st n).length = st.length := by
  simp [updateCellX]

theorem length_foldl_foldStep (env : OrchEnv) (entries : List (Nat × List String)) :
    ∀ st, (entries.foldl (foldStep env) st).length = st.length := by
  induction entries with
  | nil => intro st; rfl
  | cons e rest ih =>
    intro st
    rw [List.foldl_cons, ih]
    unfold foldStep
    split
    · exact length_updateCellX st e.1
    · rfl

theorem getD_updateCellX_ne (st : List (List String)) (n m : Nat)
    (hn : 2 ≤ n) (hm : 2 ≤ m) (hne : m ≠ n) :
    (updateCellX st n).getD (m - 1) [] = st.getD (m - 1) [] := by
  unfold updateCellX
  rw [List.getD_eq_getElem?_getD, List.getD_eq_getElem?_getD,
    List.getElem?_set_ne (by omega)]
  exact (List.getD_eq_getElem?_getD _ _ _).symm

theorem getD_foldl_preserved (env : OrchEnv) (m : Nat) (hm : 2 ≤ m) :
    ∀ (entries : List (Nat × List String)) (st : List (List String)),
      (∀ e ∈ entries, 2 ≤ e.1) →
      (∀ e ∈ entries, e.1 = m → Ev.committed ∉ processRow env e.2) →
      (entries.foldl (foldStep env) st).getD (m - 1) [] = st.getD (m - 1) []
  | [], st, _, _ => rfl
  | e :: rest, st, h2, hnc => by
    rw [List.foldl_cons,
      getD_foldl_preserved env m hm rest _
        (fun x hx => h2 x (List.mem_cons_of_mem _ hx))
        (fun x hx => hnc x (List.mem_cons_of_mem _ hx))]
    unfold foldStep
    split
    · rename_i hcom
      have hne : e.1 ≠ m := fun h => hnc e (List.mem_cons_self _ _) h hcom
      exact getD_updateCellX_ne st e.1 m (h2 e (List.mem_cons_self _ _)) hm
        (Ne.symm hne)
    · rfl

theorem padTo_of_le (q : List String) (col : Nat) (h : col ≤ q.length) :
    padTo q col = q := by
  unfold padTo
  rw [Nat.sub_eq_zero_of_le h]
  simp

theorem flag_updateCellX (st : List (List String)) (n : Nat) (hlt : n - 1 < st.length) :
    isProcessedFlag (padTo ((updateCellX st n).getD (n - 1) []) PROCESSED_INDEX)
      PROCESSED_INDEX = true := by
  have hget : (updateCellX st n).getD (n - 1) [] =
      (padTo (st.getD (n - 1) []) PROCESSED_INDEX).set (PROCESSED_INDEX - 1) "X" := by
    unfold updateCellX
    rw [List.getD_eq_getElem?_getD, List.getElem?_set_self hlt]
    rfl
  have hlenq : PROCESSED_INDEX ≤
      ((padTo (st.getD (n - 1) []) PROCESSED_INDEX).set
        (PROCESSED_INDEX - 1) "X").length := by
    rw [List.length_set]
    unfold padTo
    rw [List.length_append, List.length_replicate]
    omega
  rw [hget, padTo_of_le _ _ hlenq]
  have hx : ((padTo (st.getD (n - 1) []) PROCESSED_INDEX).set
      (PROCESSED_INDEX - 1) "X").getD (PROCESSED_INDEX - 1) "" = "X" := by
    rw [List.getD_eq_getElem?_getD, List.getElem?_set_self (by
      unfold padTo
      rw [List.length_append, List.length_replicate]
      unfold PROCESSED_INDEX INPUT_FORM_COL_COUNT
      omega)]
    rfl
  unfold isProcessedFlag
  rw [hx]
  rfl

theorem length_iterAux_bound {col : Nat} {i : Nat} {data : List (List String)}
    {e : Nat × List String} (he : e ∈ iterAux col i data) :
    i ≤ e.1 := by
  obtain ⟨e1, e2⟩ := e
  obtain ⟨j, _, hpos, _, _⟩ := iterAux_mem_iff.mp he
  omega

theorem iterAux_pairwise (col : Nat) :
    ∀ (i : Nat) (data : List (List String)),
      (iterAux col i data).Pairwise (fun a b => a.1 < b.1)
  | i, [] => by simp [iterAux]
  | i, row :: rest => by
    rw [iterAux]
    apply List.pairwise_append.mpr
    refine ⟨?_, iterAux_pairwise col (i + 1) rest, ?_⟩
    · split <;> simp
    · intro a ha b hb
      have hb' : i + 1 ≤ b.1 := length_iterAux_bound hb
      split at ha
      · simp at ha
      · rw [List.mem_singleton] at ha
        rw [ha]
        simpa using hb'

theorem iter_pairwise (values : List (List String)) :
    (iter_unprocessed_rows values PROCESSED_INDEX).Pairwise (fun a b => a.1 < b.1) :=
  iterAux_pairwise PROCESSED_INDEX 2 (values.drop 1)

theorem iter_unprocessed_mem {values : List (List String)} {pos : Nat}
    {row : List String} :
    (pos, row) ∈ iter_unprocessed_rows values PROCESSED_INDEX ↔
      2 ≤ pos ∧ pos ≤ values.length ∧
      row = padTo (values.getD (pos - 1) []) PROCESSED_INDEX ∧
      isProcessedFlag (padTo (values.getD (pos - 1) []) PROCESSED_INDEX)
        PROCESSED_INDEX = false := by
  unfold iter_unprocessed_rows
  rw [iterAux_mem_iff]
  constructor
  · intro ⟨j, hj, hpos, hrow, hflag⟩
    rw [List.length_drop] at hj
    have hget : (values.drop 1).getD j [] = values.getD (pos - 1) [] := by
      rcases values with _ | ⟨hd, tl⟩
      · simp at hj
      · simp only [List.drop_one, List.tail_cons] at *
        have h1 : pos - 1 = j + 1 := by omega
        rw [h1]
        simp
    rw [hget] at hrow hflag
    exact ⟨by omega, by omega, hrow, hflag⟩
  · intro ⟨hpos2, hposlen, hrow, hflag⟩
    refine ⟨pos - 2, ?_, by omega, ?_, ?_⟩
    · rw [List.length_drop]
      omega
    · rcases values with _ | ⟨hd, tl⟩
      · simp at hposlen
        omega
      · simp only [List.drop_one, List.tail_cons]
        have h1 : pos - 1 = (pos - 2) + 1 := by omega
        rw [hrow, h1]
        simp
    · rcases values with _ | ⟨hd, tl⟩
      · simp at hposlen
        omega
      · simp only [List.drop_one, List.tail_cons]
        have h1 : pos - 1 = (pos - 2) + 1 := by omega
        rw [h1] at hflag
        simp only [List.getD_cons_succ] at hflag
        exact hflag

theorem flag_after_fold (env : OrchEnv) (n : Nat) (row : List String) :
    ∀ (entries : List (Nat × List String)) (st : List (List String)),
      entries.Pairwise (fun a b => a.1 < b.1) →
      (∀ e ∈ entries, 2 ≤ e.1 ∧ e.1 ≤ st.length) →
      (n, row) ∈ entries →
      Ev.committed ∈ processRow env row →
      isProcessedFlag (padTo ((entries.foldl (foldStep env) st).getD (n - 1) [])
        PROCESSED_INDEX) PROCESSED_INDEX = true
  | [], st, _, _, hmem, _ => by simp at hmem
  | e :: rest, st, hpw, hb, hmem, hcom => by
    rw [List.pairwise_cons] at hpw
    rw [List.foldl_cons]
    rcases List.mem_cons.mp hmem with heq | hmem'
    · subst heq
      have hstep : foldStep env st (n, row) = updateCellX st n := by
        unfold foldStep
        rw [if_pos hcom]
      rw [hstep,
        getD_foldl_preserved env n (hb _ (List.mem_cons_self _ _)).1 rest _
          (fun x hx => (hb x (List.mem_cons_of_mem _ hx)).1)
          (fun x hx hxm => absurd (hpw.1 x hx) (by simp; omega))]
      have hbn := hb _ (List.mem_cons_self (n, row) rest)
      exact flag_updateCellX st n (by
        have h1 := hbn.1
        have h2 := hbn.2
        simp at h1 h2
        omega)
    · apply flag_after_fold env n row rest _ hpw.2 ?_ hmem' hcom
      intro x hx
      have hbx := hb x (List.mem_cons_of_mem _ hx)
      refine ⟨hbx.1, ?_⟩
      have hlen : (foldStep env st e).length = st.length := by
        unfold foldStep
        split
        · exact length_updateCellX st e.1
        · rfl
      rw [hlen]
      exact hbx.2

theorem mem_flatMap_rowTrace {env : OrchEnv} {entries : List (Nat × List String)}
    {n : Nat} {ev : Ev} :
    (n, ev) ∈ entries.flatMap (rowTrace env) ↔
      ∃ row, (n, row) ∈ entries ∧ ev ∈ processRow env row := by
  simp only [List.mem_flatMap, rowTrace, List.mem_map]
  constructor
  · rintro ⟨e, he, a, ha, hpe⟩
    rw [Prod.mk.injEq] at hpe
    obtain ⟨h1, h2⟩ := hpe
    subst h1
    subst h2
    exact ⟨e.2, he, ha⟩
  · rintro ⟨row, hrow, hev⟩
    exact ⟨(n, row), hrow, ev, hev, rfl⟩

theorem countAt_append (a b : List (Nat × Ev)) (n : Nat) (p : Ev → Bool) :
    countAt (a ++ b) n p = countAt a n p + countAt b n p := by
  simp [countAt, List.countP_append]

theorem countAt_rowTrace_ne (env : OrchEnv) (e : Nat × List String) (n : Nat)
    (p : Ev → Bool) (h : e.1 ≠ n) : countAt (rowTrace env e) n p = 0 := by
  simp [countAt, rowTrace, List.countP_map, Function.comp, h]

theorem countAt_rowTrace_self (env : OrchEnv) (n : Nat) (row : List String)
    (p : Ev → Bool) :
    countAt (rowTrace env (n, row)) n p = (processRow env row).countP p := by
  simp only [countAt, rowTrace, List.countP_map]
  congr 1
  funext ev
  simp

theorem countAt_flatMap_zero (env : OrchEnv) (n : Nat) (p : Ev → Bool) :
    ∀ entries : List (Nat × List String), (∀ e ∈ entries, e.1 ≠ n) →
      countAt (entries.flatMap (rowTrace env)) n p = 0
  | [], _ => by simp [countAt]
  | e :: rest, h => by
    rw [List.flatMap_cons, countAt_append,
      countAt_rowTrace_ne env e n p (h e (List.mem_cons_self _ _)),
      countAt_flatMap_zero env n p rest (fun x hx => h x (List.mem_cons_of_mem _ hx))]

theorem countAt_flatMap_unique (env : OrchEnv) (n : Nat) (row : List String)
    (p : Ev → Bool) :
    ∀ entries : List (Nat × List String),
      entries.Pairwise (fun a b => a.1 < b.1) → (n, row) ∈ entries →
      countAt (entries.flatMap (rowTrace env)) n p = (processRow env row).countP p
  | [], _, hmem => by simp at hmem
  | e :: rest, hpw, hmem => by
    rw [List.pairwise_cons] at hpw
    rw [List.flatMap_cons, countAt_append]
    rcases List.mem_cons.mp hmem with heq | hmem'
    · subst heq
      rw [countAt_rowTrace_self,
        countAt_flatMap_zero env n p rest (fun x hx => by
          have := hpw.1 x hx
          simp at this
          omega)]
      omega
    · have hne : e.1 ≠ n := by
        have := hpw.1 (n, row) hmem'
        omega
      rw [countAt_rowTrace_ne env e n p hne,
        countAt_flatMap_unique env n row p rest hpw.2 hmem']
      omega

set_option maxHeartbeats 2000000

theorem processRow_committed_counts (env : OrchEnv) (row : List String)
    (hcom : Ev.committed ∈ processRow env row) (hlog : env.logOk = .ok ()) :
    (processRow env row).countP isCommittedEv = 1 ∧
    (processRow env row).countP isLoggedEv = 1 ∧
    (processRow env row).countP isUploadedEv = 1 := by
  unfold processRow at hcom ⊢
  repeat' split at hcom
  all_goals simp_all [isCommittedEv, isLoggedEv, isUploadedEv]

set_option maxHeartbeats 1000000

/-- C2: after a run in which record `n` was committed, a second run of
the pipeline over the resulting sheet state processes nothing at
position `n` (the record is skipped via its commit flag), commits no
record at all, and over both runs record `n` has exactly one commit,
exactly one ledger append and exactly one upload, provided no external
call fails. -/
theorem pipeline_second_run_idempotent (env : OrchEnv) (values : List (List String)) (n : Nat)
    (henv : envOk env)
    (hc : (n, Ev.committed) ∈ (process_submission_sheet env values).2) :
    (∀ e, (n, e) ∉
      (process_submission_sheet env (process_submission_sheet env values).1).2) ∧
    (∀ m, (m, Ev.committed) ∉
      (process_submission_sheet env (process_submission_sheet env values).1).2) ∧
    countAt ((process_submission_sheet env values).2 ++
        (process_submission_sheet env (process_submission_sheet env values).1).2)
      n isCommittedEv = 1 ∧
    countAt ((process_submission_sheet env values).2 ++
        (process_submission_sheet env (process_submission_sheet env values).1).2)
      n isLoggedEv = 1 ∧
    countAt ((process_submission_sheet env values).2 ++
        (process_submission_sheet env (process_submission_sheet env values).1).2)
      n isUploadedEv = 1 := by
  obtain ⟨hef, hdl, hu, hlog, hdel, hcm⟩ := henv
  have htr1 : (process_submission_sheet env values).2 =
      (iter_unprocessed_rows values PROCESSED_INDEX).flatMap (rowTrace env) :=
    runRows_trace env _ values
  have hst1 : (process_submission_sheet env values).1 =
      (iter_unprocessed_rows values PROCESSED_INDEX).foldl (foldStep env) values :=
    runRows_state env _ values
  have htr2 : (process_submission_sheet env (process_submission_sheet env values).1).2 =
      (iter_unprocessed_rows (process_submission_sheet env values).1
        PROCESSED_INDEX).flatMap (rowTrace env) :=
    runRows_trace env _ _
  rw [htr1, mem_flatMap_rowTrace] at hc
  obtain ⟨row, hrowmem, hcom⟩ := hc
  have hb : ∀ e ∈ iter_unprocessed_rows values PROCESSED_INDEX,
      2 ≤ e.1 ∧ e.1 ≤ values.length := by
    intro e he
    obtain ⟨e1, e2⟩ := e
    obtain ⟨h2, hlen, _, _⟩ := iter_unprocessed_mem.mp he
    exact ⟨h2, hlen⟩
  have hpw := iter_pairwise values
  have hstlen : (process_submission_sheet env values).1.length = values.length := by
    rw [hst1]
    exact length_foldl_foldStep env _ values
  have hflagn : isProcessedFlag (padTo ((process_submission_sheet env values).1.getD
      (n - 1) []) PROCESSED_INDEX) PROCESSED_INDEX = true := by
    rw [hst1]
    exact flag_after_fold env n row _ values hpw hb hrowmem hcom
  have hnone : ∀ e, (n, e) ∉
      (process_submission_sheet env (process_submission_sheet env values).1).2 := by
    intro e he
    rw [htr2, mem_flatMap_rowTrace] at he
    obtain ⟨row2, hmem2, _⟩ := he
    obtain ⟨_, _, _, hflag2⟩ := iter_unprocessed_mem.mp hmem2
    rw [hflagn] at hflag2
    simp at hflag2
  have hnocommit : ∀ m, (m, Ev.committed) ∉
      (process_submission_sheet env (process_submission_sheet env values).1).2 := by
    intro m hm
    rw [htr2, mem_flatMap_rowTrace] at hm
    obtain ⟨row2, hmem2, hcom2⟩ := hm
    obtain ⟨hm2, hmlen, hrow2, hflag2⟩ := iter_unprocessed_mem.mp hmem2
    rw [hstlen] at hmlen
    by_cases hA : ∃ r1, (r1 ∈ iter_unprocessed_rows values PROCESSED_INDEX ∧
        r1.1 = m) ∧ Ev.committed ∈ processRow env r1.2
    · obtain ⟨r1, ⟨hr1, hr1m⟩, hc1⟩ := hA
      have hflagm : isProcessedFlag (padTo ((process_submission_sheet env values).1.getD
          (m - 1) []) PROCESSED_INDEX) PROCESSED_INDEX = true := by
        rw [hst1]
        refine flag_after_fold env m r1.2 _ values hpw hb ?_ hc1
        rw [← hr1m]
        exact hr1
      rw [hflagm] at hflag2
      simp at hflag2
    · push_neg at hA
      have hpres : (process_submission_sheet env values).1.getD (m - 1) [] =
          values.getD (m - 1) [] := by
        rw [hst1]
        refine getD_foldl_preserved env m hm2 _ values
          (fun x hx => (hb x hx).1) ?_
        intro x hx hxm
        exact hA x ⟨hx, hxm⟩
      rw [hpres] at hrow2 hflag2
      have hmem1 : (m, row2) ∈ iter_unprocessed_rows values PROCESSED_INDEX :=
        iter_unprocessed_mem.mpr ⟨hm2, hmlen, hrow2, hflag2⟩
      exact hA (m, row2) ⟨hmem1, rfl⟩ hcom2
  have hcnt2 : ∀ p, countAt
      (process_submission_sheet env (process_submission_sheet env values).1).2 n p
      = 0 := by
    intro p
    rw [htr2]
    apply countAt_flatMap_zero
    intro e he hne
    obtain ⟨e1, e2⟩ := e
    simp at hne
    subst hne
    obtain ⟨_, _, _, hflag2⟩ := iter_unprocessed_mem.mp he
    rw [hflagn] at hflag2
    simp at hflag2
  have hcnt1 : ∀ p, countAt (process_submission_sheet env values).2 n p =
      (processRow env row).countP p := by
    intro p
    rw [htr1]
    exact countAt_flatMap_unique env n row p _ hpw hrowmem
  obtain ⟨hcc, hcl, hcu⟩ := processRow_committed_counts env row hcom hlog
  refine ⟨hnone, hnocommit, ?_, ?_, ?_⟩
  · rw [countAt_append, hcnt1, hcnt2, hcc]
  · rw [countAt_append, hcnt1, hcnt2, hcl]
  · rw [countAt_append, hcnt1, hcnt2, hcu]

/-- A concrete sheet: a header row and one unprocessed submission row. -/
def demoValues : List (List String) := [["h"], demoRow]

/-- Witness for C2: on a concrete one-record sheet with an all-ok
environment, the second run produces nothing and the totals are 1. -/
theorem pipeline_second_run_idempotent_witness :
    (∀ e, (2, e) ∉
      (process_submission_sheet demoEnv
        (process_submission_sheet demoEnv demoValues).1).2) ∧
    (∀ m, (m, Ev.committed) ∉
      (process_submission_sheet demoEnv
        (process_submission_sheet demoEnv demoValues).1).2) ∧
    countAt ((process_submission_sheet demoEnv demoValues).2 ++
        (process_submission_sheet demoEnv
          (process_submission_sheet demoEnv demoValues).1).2)
      2 isCommittedEv = 1 ∧
    countAt ((process_submission_sheet demoEnv demoValues).2 ++
        (process_submission_sheet demoEnv
          (process_submission_sheet demoEnv demoValues).1).2)
      2 isLoggedEv = 1 ∧
    countAt ((process_submission_sheet demoEnv demoValues).2 ++
        (process_submission_sheet demoEnv
          (process_submission_sheet demoEnv demoValues).1).2)
      2 isUploadedEv = 1 :=
  pipeline_second_run_idempotent demoEnv demoValues 2
    ⟨⟨"folder", rfl⟩, ⟨⟨"song.mp3", "audio/mpeg"⟩, rfl⟩, ⟨"dest1", rfl⟩, rfl, rfl, rfl⟩
    (by decide)

end RoutineMusic
